import Mathlib

/-!
# Message splitting (`pkg/utils/message.go`)

A shallow embedding of `SplitMessage` and its four scanners, followed by the
properties of the chunk sequence it returns.

Conventions of the embedding.

* A Go `string` is the list of its bytes (`Bytes`), every byte a natural number;
  `len(s)` is `s.length`, `s[:n]` is `slicePrefix s n` and `s[n:]` is
  `sliceSuffix s n`, both `none` when Go would raise an out-of-range error.
* A Go `int` is an `Int`.  The only arithmetic done on an input is `limit + 500`,
  evaluated only when `len(content) > limit`; it is exact for every limit below
  `2^63 - 500`, and no addressable string is longer than such a limit.
* The `for len(content) > 0` loop is executed with a fuel counter, one unit per
  iteration.  `Outcome.starved` means that the fuel did not suffice.
-/

namespace Message

/-- A string, as the list of its bytes. -/
abbrev Bytes := List Nat

/-- The fence marker, three backticks. -/
def fence : Bytes := [96, 96, 96]

/-! ## Slices -/

/-- Go `s[:n]`: out of range unless `0 ≤ n ≤ len(s)`. -/
def slicePrefix (s : Bytes) (n : Int) : Option Bytes :=
  if 0 ≤ n ∧ n ≤ s.length then some (s.take n.toNat) else none

/-- Go `s[n:]`: out of range unless `0 ≤ n ≤ len(s)`. -/
def sliceSuffix (s : Bytes) (n : Int) : Option Bytes :=
  if 0 ≤ n ∧ n ≤ s.length then some (s.drop n.toNat) else none

/-! ## The boundary scanners -/

/-- Loop of `FindLastNewline`: the first argument is `i + 1` for the loop
variable `i`, which runs downwards while `i >= searchStart`. -/
def lastNewlineLoop (s : Bytes) (searchStart : Int) : Nat → Int
  | 0 => -1
  | i + 1 =>
    if searchStart ≤ (i : Int) then
      if s.getD i 0 = 10 then (i : Int) else lastNewlineLoop s searchStart i
    else -1

/-- Go `FindLastNewline(s, searchWindow)`. -/
def FindLastNewline (s : Bytes) (searchWindow : Int) : Int :=
  let searchStart : Int := (s.length : Int) - searchWindow
  let searchStart : Int := if searchStart < 0 then 0 else searchStart
  lastNewlineLoop s searchStart s.length

/-- Loop of `FindLastSpace`, as `lastNewlineLoop`, for a space or a tab. -/
def lastSpaceLoop (s : Bytes) (searchStart : Int) : Nat → Int
  | 0 => -1
  | i + 1 =>
    if searchStart ≤ (i : Int) then
      if s.getD i 0 = 32 ∨ s.getD i 0 = 9 then (i : Int) else lastSpaceLoop s searchStart i
    else -1

/-- Go `FindLastSpace(s, searchWindow)`. -/
def FindLastSpace (s : Bytes) (searchWindow : Int) : Int :=
  let searchStart : Int := (s.length : Int) - searchWindow
  let searchStart : Int := if searchStart < 0 then 0 else searchStart
  lastSpaceLoop s searchStart s.length

/-! ## The fence scanners -/

/-- Loop of `FindLastUnclosedCodeBlock` over the text that remains at index `i`:
the guard `i+2 < len(text) && text[i] == text[i+1] == text[i+2] == backtick`
holds exactly when that remaining text starts with three backticks.  Returns the
final `count` and `lastOpenIdx`. -/
def fenceScan : Bytes → Nat → Nat → Int → Nat × Int
  | [], _, count, lastOpenIdx => (count, lastOpenIdx)
  | a :: b :: c :: rest, i, count, lastOpenIdx =>
    if a = 96 ∧ b = 96 ∧ c = 96 then
      fenceScan rest (i + 3) (count + 1) (if count = 0 then (i : Int) else lastOpenIdx)
    else fenceScan (b :: c :: rest) (i + 1) count lastOpenIdx
  | _ :: rest, i, count, lastOpenIdx => fenceScan rest (i + 1) count lastOpenIdx

/-- Go `FindLastUnclosedCodeBlock(text)`. -/
def FindLastUnclosedCodeBlock (text : Bytes) : Int :=
  let r := fenceScan text 0 0 (-1)
  if r.1 % 2 = 1 then r.2 else -1

/-- Loop of `FindNextClosingCodeBlock` over the text that remains at index `i`. -/
def closingScan : Bytes → Nat → Int
  | [], _ => -1
  | a :: b :: c :: rest, i =>
    if a = 96 ∧ b = 96 ∧ c = 96 then ((i + 3 : Nat) : Int)
    else closingScan (b :: c :: rest) (i + 1)
  | _ :: rest, i => closingScan rest (i + 1)

/-- Go `FindNextClosingCodeBlock(text, startIdx)`.  At a negative `startIdx` the
first iteration reads `text[startIdx]`, out of range, when
`startIdx + 2 < len(text)`; otherwise the guard `i+2 < len(text)` fails at every
iteration and the loop ends without a match. -/
def FindNextClosingCodeBlock (text : Bytes) (startIdx : Int) : Option Int :=
  if startIdx < 0 then
    if startIdx + 2 < text.length then none else some (-1)
  else some (closingScan (text.drop startIdx.toNat) startIdx.toNat)

/-! ## `strings.TrimSpace` -/

/-- Modelled from the spec: `strings.TrimSpace` belongs to the Go standard
library, not to this repository; the spec calls it `trim` (remove leading and
trailing whitespace).  White space is what `unicode.IsSpace` accepts: the table
lists the UTF-8 encodings of U+0009..U+000D, U+0020, U+0085, U+00A0, U+1680,
U+2000..U+200A, U+2028, U+2029, U+202F, U+205F and U+3000. -/
def spaceRunes : List Bytes :=
  [[9], [10], [11], [12], [13], [32],
   [0xC2, 0x85], [0xC2, 0xA0],
   [0xE1, 0x9A, 0x80],
   [0xE2, 0x80, 0x80], [0xE2, 0x80, 0x81], [0xE2, 0x80, 0x82], [0xE2, 0x80, 0x83],
   [0xE2, 0x80, 0x84], [0xE2, 0x80, 0x85], [0xE2, 0x80, 0x86], [0xE2, 0x80, 0x87],
   [0xE2, 0x80, 0x88], [0xE2, 0x80, 0x89], [0xE2, 0x80, 0x8A],
   [0xE2, 0x80, 0xA8], [0xE2, 0x80, 0xA9], [0xE2, 0x80, 0xAF],
   [0xE2, 0x81, 0x9F],
   [0xE3, 0x80, 0x80]]

/-- The white-space rune that `s` starts with, if it starts with one. -/
def leadingSpace (s : Bytes) : Option Bytes :=
  spaceRunes.find? (fun e => e.isPrefixOf s)

/-- The white-space rune that `s` ends with, if it ends with one. -/
def trailingSpace (s : Bytes) : Option Bytes :=
  spaceRunes.find? (fun e => e.isSuffixOf s)

/-- Remove leading white-space runes, at most `n` of them. -/
def trimLeftLoop : Nat → Bytes → Bytes
  | 0, s => s
  | n + 1, s =>
    match leadingSpace s with
    | some e => trimLeftLoop n (s.drop e.length)
    | none => s

/-- Remove trailing white-space runes, at most `n` of them. -/
def trimRightLoop : Nat → Bytes → Bytes
  | 0, s => s
  | n + 1, s =>
    match trailingSpace s with
    | some e => trimRightLoop n (s.take (s.length - e.length))
    | none => s

/-- Modelled from the spec: Go `strings.TrimSpace(s)` (standard library, not in
this repository), the slice of `s` with all leading and trailing white space
removed, as defined by Unicode.  A string holds at most `len(s)` runes. -/
def TrimSpace (s : Bytes) : Bytes :=
  let t := trimLeftLoop s.length s
  trimRightLoop t.length t

/-! ## `SplitMessage` -/

/-- The boundary search that `SplitMessage` runs twice (lines 21-27 on
`content[:limit]` with fallback `limit`, lines 44-50 on `content[:unclosedIdx]`
with fallback `unclosedIdx`): last newline, else last space, else the fallback. -/
def boundaryOr (s : Bytes) (fallback : Int) : Int :=
  let msgEnd := FindLastNewline s 200
  let msgEnd := if msgEnd ≤ 0 then FindLastSpace s 100 else msgEnd
  if msgEnd ≤ 0 then fallback else msgEnd

/-- Lines 18-60 of `SplitMessage`, one iteration for a content longer than
`limit`: the value of `msgEnd` at the emit point, `none` when a slice expression
is out of range. -/
def splitPoint (content : Bytes) (limit : Int) : Option Int := do
  let head ← slicePrefix content limit
  let msgEnd := boundaryOr head limit
  let candidate ← slicePrefix content msgEnd
  let unclosedIdx := FindLastUnclosedCodeBlock candidate
  let msgEnd ←
    if unclosedIdx ≥ 0 then
      let extendedLimit := limit + 500
      if (content.length : Int) > extendedLimit then do
        let closingIdx ← FindNextClosingCodeBlock content msgEnd
        if closingIdx > 0 ∧ closingIdx ≤ extendedLimit then
          pure closingIdx
        else do
          let before ← slicePrefix content unclosedIdx
          pure (boundaryOr before unclosedIdx)
      else pure (content.length : Int)
    else pure msgEnd
  pure (if msgEnd ≤ 0 then limit else msgEnd)

/-- What a run of `SplitMessage` ends in. -/
inductive Outcome where
  /-- The function returns these chunks. -/
  | ok (messages : List Bytes)
  /-- A slice or index expression is out of range. -/
  | panic
  /-- The loop is still running when the fuel is used up. -/
  | starved
  deriving DecidableEq

/-- The loop of `SplitMessage` with at most `fuel` iterations. -/
def splitLoop : Nat → Bytes → Int → Outcome
  | 0, content, _ => if content.length > 0 then .starved else .ok []
  | fuel + 1, content, limit =>
    if content.length > 0 then
      if (content.length : Int) ≤ limit then .ok [content]
      else
        match splitPoint content limit with
        | none => .panic
        | some msgEnd =>
          match slicePrefix content msgEnd, sliceSuffix content msgEnd with
          | some chunk, some rest =>
            match splitLoop fuel (TrimSpace rest) limit with
            | .ok messages => .ok (chunk :: messages)
            | other => other
          | _, _ => .panic
    else .ok []

/-- Go `SplitMessage(content, limit)`, run with `len(content)` iterations.  For
a positive limit every iteration emits at least one byte, so these suffice, and
a run that has ended is not changed by more fuel (`splitLoop_fuel_le`). -/
def SplitMessage (content : Bytes) (limit : Int) : Outcome :=
  splitLoop content.length content limit

/-! ## Vocabulary of the properties -/

/-- The chunks of a run paired with the text that follows each of them in the
content being split by that iteration (before `TrimSpace`); the last chunk of a
run that ends by line 14 is followed by nothing. -/
def traceLoop : Nat → Bytes → Int → List (Bytes × Bytes)
  | 0, _, _ => []
  | fuel + 1, content, limit =>
    if content.length > 0 then
      if (content.length : Int) ≤ limit then [(content, [])]
      else
        match splitPoint content limit with
        | none => []
        | some msgEnd =>
          match slicePrefix content msgEnd, sliceSuffix content msgEnd with
          | some chunk, some rest => (chunk, rest) :: traceLoop fuel (TrimSpace rest) limit
          | _, _ => []
    else []

/-- The emitted chunks of `SplitMessage(content, limit)`, each with the text
behind it at the time it was cut. -/
def SplitTrace (content : Bytes) (limit : Int) : List (Bytes × Bytes) :=
  traceLoop content.length content limit

/-- The candidate split offset of lines 18-27, before the fence guard. -/
def candidateEnd (content : Bytes) (limit : Int) : Int :=
  boundaryOr (content.take limit.toNat) limit

/-- The test of line 39: a closing fence is found at or after the candidate
offset and ends at an offset of at most `limit + 500`. -/
def closingWithin (content : Bytes) (limit : Int) : Bool :=
  match FindNextClosingCodeBlock content (candidateEnd content limit) with
  | some closingIdx => decide (closingIdx > 0 ∧ closingIdx ≤ limit + 500)
  | none => false

/-- The fence guard reaches line 38: the candidate prefix has an unclosed fence
and the content is longer than `limit + 500`. -/
def guardSearches (content : Bytes) (limit : Int) : Bool :=
  decide (FindLastUnclosedCodeBlock (content.take (candidateEnd content limit).toNat) ≥ 0 ∧
    (content.length : Int) > limit + 500)

/-- The fence guard extends the split to a closing fence (line 41). -/
def guardExtends (content : Bytes) (limit : Int) : Bool :=
  guardSearches content limit && closingWithin content limit

/-- The fence guard retreats before the code block (lines 44-50). -/
def guardRetreats (content : Bytes) (limit : Int) : Bool :=
  guardSearches content limit && !closingWithin content limit

/-- The plain splitter of C8: the loop of `SplitMessage` without the fence guard
of lines 29-56 and the fallback of lines 58-60.  While the text is longer than
`limit` it emits `text[:e]` and goes on with `TrimSpace(text[e:])`, where `e` is
chosen by `FindLastNewline(text[:limit], 200)`, then
`FindLastSpace(text[:limit], 100)`, then `limit` (a search result of 0 or less
counting as no boundary, as on lines 22 and 25); a text that fits is emitted
whole and an empty text emits nothing. -/
def plainLoop : Nat → Bytes → Int → Outcome
  | 0, text, _ => if text.length > 0 then .starved else .ok []
  | fuel + 1, text, limit =>
    if text.length > 0 then
      if (text.length : Int) ≤ limit then .ok [text]
      else
        match slicePrefix text limit with
        | none => .panic
        | some head =>
          match slicePrefix text (boundaryOr head limit), sliceSuffix text (boundaryOr head limit) with
          | some chunk, some rest =>
            match plainLoop fuel (TrimSpace rest) limit with
            | .ok messages => .ok (chunk :: messages)
            | other => other
          | _, _ => .panic
    else .ok []

/-- The plain splitter run on a whole text. -/
def PlainSplit (text : Bytes) (limit : Int) : Outcome :=
  plainLoop text.length text limit

/-- A run of white-space runes. -/
inductive SpaceRun : Bytes → Prop where
  | nil : SpaceRun []
  | cons (e w : Bytes) : e ∈ spaceRunes → SpaceRun w → SpaceRun (e ++ w)

/-- The interleaving `c1 ++ w1 ++ c2 ++ w2 ++ ... ++ cn ++ wn`. -/
def weave : List Bytes → List Bytes → Bytes
  | c :: cs, w :: ws => c ++ w ++ weave cs ws
  | _, _ => []

/-- The string consists of white-space characters only: `TrimSpace` removes all
of it. -/
def allSpace (w : Bytes) : Bool := (TrimSpace w).isEmpty

/-- Delete every white-space rune met by a left-to-right scan, with at most `n`
steps. -/
def deleteSpaceLoop : Nat → Bytes → Bytes
  | 0, _ => []
  | _ + 1, [] => []
  | n + 1, a :: t =>
    match leadingSpace (a :: t) with
    | some e => deleteSpaceLoop n ((a :: t).drop e.length)
    | none => a :: deleteSpaceLoop n t

/-- The string with all its white space deleted. -/
def deleteSpace (s : Bytes) : Bytes := deleteSpaceLoop s.length s

/-- A UTF-8 continuation byte, `0x80..0xBF`. -/
def isCont (b : Nat) : Bool := decide (0x80 ≤ b ∧ b ≤ 0xBF)

/-- Some white-space rune of the string is directly followed by a continuation
byte.  This never holds in a valid UTF-8 string, where the byte after a complete
rune starts the next rune (`ValidString_spaceThenCont`). -/
def spaceThenCont : Bytes → Bool
  | [] => false
  | a :: t =>
    (match leadingSpace (a :: t) with
      | some e =>
        match (a :: t).drop e.length with
        | b :: _ => isCont b
        | [] => false
      | none => false) || spaceThenCont t

/-- Least second byte of a well-formed UTF-8 sequence with first byte `b0`. -/
def secondLo (b0 : Nat) : Nat := if b0 = 0xE0 then 0xA0 else if b0 = 0xF0 then 0x90 else 0x80

/-- Greatest second byte of a well-formed UTF-8 sequence with first byte `b0`. -/
def secondHi (b0 : Nat) : Nat := if b0 = 0xED then 0x9F else if b0 = 0xF4 then 0x8F else 0xBF

/-- Width of the well-formed UTF-8 sequence that `s` starts with (RFC 3629, as
`utf8.ValidString` checks it), 0 when `s` starts with none.  A byte that is
missing reads as 0, which no range of a second, third or fourth byte holds. -/
def runeWidth : Bytes → Nat
  | [] => 0
  | b0 :: t =>
    if b0 < 0x80 then 1
    else if 0xC2 ≤ b0 ∧ b0 ≤ 0xDF then
      if isCont (t.getD 0 0) then 2 else 0
    else if 0xE0 ≤ b0 ∧ b0 ≤ 0xEF then
      if secondLo b0 ≤ t.getD 0 0 ∧ t.getD 0 0 ≤ secondHi b0 ∧ isCont (t.getD 1 0) then 3 else 0
    else if 0xF0 ≤ b0 ∧ b0 ≤ 0xF4 then
      if secondLo b0 ≤ t.getD 0 0 ∧ t.getD 0 0 ≤ secondHi b0 ∧ isCont (t.getD 1 0) ∧
          isCont (t.getD 2 0) then 4 else 0
    else 0

/-- The string is a sequence of well-formed UTF-8 sequences, at most `n` of them. -/
def validLoop : Nat → Bytes → Bool
  | _, [] => true
  | 0, _ :: _ => false
  | n + 1, a :: t =>
    decide (runeWidth (a :: t) ≠ 0) && validLoop n ((a :: t).drop (runeWidth (a :: t)))

/-- The string is valid UTF-8. -/
def ValidString (s : Bytes) : Bool := validLoop s.length s

/-- Start offsets of the fences that a greedy left-to-right scan of the text
counts, the first byte of the text being at offset `i`: a fence found at an
offset is counted and the scan goes on behind it, so the occurrences do not
overlap. -/
def greedyFences : Bytes → Nat → List Nat
  | [], _ => []
  | a :: b :: c :: rest, i =>
    if a = 96 ∧ b = 96 ∧ c = 96 then i :: greedyFences rest (i + 3)
    else greedyFences (b :: c :: rest) (i + 1)
  | _ :: rest, i => greedyFences rest (i + 1)

/-- The three bytes `text[j..j+3)` are a fence. -/
def fenceAt (text : Bytes) (j : Nat) : Bool := decide ((text.drop j).take 3 = fence)

/-- The byte is a newline. -/
def isNewline (b : Nat) : Bool := decide (b = 10)

/-- The byte is a space or a tab. -/
def isBlank (b : Nat) : Bool := decide (b = 32 ∨ b = 9)

/-- First offset of the trailing window of `w` bytes of `s`. -/
def windowStart (s : Bytes) (w : Int) : Int := max 0 ((s.length : Int) - w)

/-- Offset `i` is the greatest offset of the trailing window of `w` bytes of `s`
that holds a byte accepted by `p`. -/
def lastIn (p : Nat → Bool) (s : Bytes) (w : Int) (i : Nat) : Prop :=
  windowStart s w ≤ (i : Int) ∧ i < s.length ∧ p (s.getD i 0) = true ∧
    ∀ k : Nat, i < k → k < s.length → p (s.getD k 0) = false

/-- The trailing window of `w` bytes of `s` holds no byte accepted by `p`. -/
def noneIn (p : Nat → Bool) (s : Bytes) (w : Int) : Prop :=
  ∀ k : Nat, windowStart s w ≤ (k : Int) → k < s.length → p (s.getD k 0) = false

/-- The candidate prefix `content[:msgEnd]` that the fence guard inspects
(line 30). -/
def candidatePrefix (content : Bytes) (limit : Int) : Bytes :=
  content.take (candidateEnd content limit).toNat

/-- The fence guard retreats and the open block begins the text: the candidate
prefix counts exactly one fence, at offset 0, so no split point lies before the
block. -/
def openBlockAtStart (content : Bytes) (limit : Int) : Bool :=
  guardRetreats content limit && decide (greedyFences (candidatePrefix content limit) 0 = [0])

/-- A fence lies across the candidate offset: it starts one or two bytes in
front of it and ends behind it, so that the candidate prefix does not hold it
and the search of line 38, which starts at the candidate offset, misses it. -/
def fenceStraddles (content : Bytes) (limit : Int) : Bool :=
  fenceAt content ((candidateEnd content limit).toNat - 1) ||
    (decide (2 ≤ (candidateEnd content limit).toNat) &&
      fenceAt content ((candidateEnd content limit).toNat - 2))

/-- The fence guard extends the split, or retreats from a block that begins the
text, while a fence lies across the candidate offset. -/
def straddleSlip (content : Bytes) (limit : Int) : Bool :=
  (guardExtends content limit || openBlockAtStart content limit) &&
    fenceStraddles content limit

/-- The fence guard retreats from offset 0 although the candidate prefix counts
three or more fences: `FindLastUnclosedCodeBlock` has reported the first fence,
which is closed, and not the open one. -/
def firstFenceSlip (content : Bytes) (limit : Int) : Bool :=
  guardRetreats content limit &&
    decide (FindLastUnclosedCodeBlock (candidatePrefix content limit) = 0 ∧
      3 ≤ (greedyFences (candidatePrefix content limit) 0).length)

/-- No fence lies across the seam of `a ++ b`. -/
def NoStraddle (a b : Bytes) : Prop :=
  ¬ ([96, 96] <:+ a ∧ [96] <+: b) ∧ ¬ ([96] <:+ a ∧ [96, 96] <+: b)

/-! # Properties

## Lemmas on the scanners -/

theorem lastNewlineLoop_range (s : Bytes) (ss : Int) (n : Nat) :
    lastNewlineLoop s ss n = -1 ∨ (ss ≤ lastNewlineLoop s ss n ∧ lastNewlineLoop s ss n < n) := by
  induction n with
  | zero => left; rfl
  | succ i ih =>
    unfold lastNewlineLoop
    split_ifs with h1 h2
    · right; constructor <;> omega
    · rcases ih with ih | ih
      · left; exact ih
      · right; constructor <;> omega
    · left; rfl

theorem lastSpaceLoop_range (s : Bytes) (ss : Int) (n : Nat) :
    lastSpaceLoop s ss n = -1 ∨ (ss ≤ lastSpaceLoop s ss n ∧ lastSpaceLoop s ss n < n) := by
  induction n with
  | zero => left; rfl
  | succ i ih =>
    unfold lastSpaceLoop
    split_ifs with h1 h2
    · right; constructor <;> omega
    · rcases ih with ih | ih
      · left; exact ih
      · right; constructor <;> omega
    · left; rfl

theorem FindLastNewline_range (s : Bytes) (w : Int) :
    FindLastNewline s w = -1 ∨ (0 ≤ FindLastNewline s w ∧ FindLastNewline s w < s.length) := by
  unfold FindLastNewline
  simp only
  rcases lastNewlineLoop_range s (if (s.length : Int) - w < 0 then 0 else (s.length : Int) - w) s.length
    with h | h
  · left; exact h
  · right
    refine ⟨?_, h.2⟩
    have := h.1
    split_ifs at this <;> omega

theorem FindLastSpace_range (s : Bytes) (w : Int) :
    FindLastSpace s w = -1 ∨ (0 ≤ FindLastSpace s w ∧ FindLastSpace s w < s.length) := by
  unfold FindLastSpace
  simp only
  rcases lastSpaceLoop_range s (if (s.length : Int) - w < 0 then 0 else (s.length : Int) - w) s.length
    with h | h
  · left; exact h
  · right
    refine ⟨?_, h.2⟩
    have := h.1
    split_ifs at this <;> omega

theorem boundaryOr_cases (s : Bytes) (fb : Int) :
    boundaryOr s fb = fb ∨ (0 < boundaryOr s fb ∧ boundaryOr s fb < s.length) := by
  unfold boundaryOr
  simp only
  rcases FindLastNewline_range s 200 with h1 | h1 <;>
  rcases FindLastSpace_range s 100 with h2 | h2 <;>
  split_ifs <;> first | (left; rfl) | (right; constructor <;> omega)

theorem fence_infix_cons (a : Nat) (t : Bytes) :
    fence <:+: a :: t ↔ fence <+: a :: t ∨ fence <:+: t := List.infix_cons_iff

theorem fence_prefix_iff (a b c : Nat) (t : Bytes) :
    fence <+: a :: b :: c :: t ↔ a = 96 ∧ b = 96 ∧ c = 96 := by
  simp [fence, List.cons_prefix_cons, eq_comm]

theorem not_fence_infix_short (t : Bytes) (h : t.length < 3) : ¬ fence <:+: t := by
  intro hf
  have := hf.length_le
  simp [fence] at this
  omega

theorem not_fence_prefix_short (t : Bytes) (h : t.length < 3) : ¬ fence <+: t := by
  intro hf
  exact not_fence_infix_short t h hf.isInfix


theorem fenceScan_spec : ∀ (n : Nat) (t : Bytes), t.length ≤ n → ∀ (i c : Nat) (l : Int),
    c ≤ (fenceScan t i c l).1 ∧ (0 < c → (fenceScan t i c l).2 = l) ∧
    (¬ fence <:+: t → fenceScan t i c l = (c, l)) ∧
    (fence <:+: t → c < (fenceScan t i c l).1 ∧
      (c = 0 → ∃ k : Nat, (fenceScan t i c l).2 = (i : Int) + k ∧ fence <+: t.drop k ∧
        ¬ fence <:+: t.take (k + 2))) := by
  intro n
  induction n with
  | zero =>
    intro t ht i c l
    have : t = [] := List.eq_nil_of_length_eq_zero (by omega)
    subst this
    refine ⟨by simp [fenceScan], by simp [fenceScan], by simp [fenceScan], ?_⟩
    intro h
    exact absurd h (not_fence_infix_short [] (by simp))
  | succ n ih =>
    intro t ht i c l
    match t, ht with
    | [], _ =>
      refine ⟨by simp [fenceScan], by simp [fenceScan], by simp [fenceScan], ?_⟩
      intro h
      exact absurd h (not_fence_infix_short [] (by simp))
    | [a], _ =>
      refine ⟨by simp [fenceScan], by simp [fenceScan], by simp [fenceScan], ?_⟩
      intro h
      exact absurd h (not_fence_infix_short [a] (by simp))
    | [a, b], _ =>
      refine ⟨by simp [fenceScan], by simp [fenceScan], by simp [fenceScan], ?_⟩
      intro h
      exact absurd h (not_fence_infix_short [a, b] (by simp))
    | a :: b :: c' :: rest, ht =>
      by_cases hp : a = 96 ∧ b = 96 ∧ c' = 96
      · have hrest : rest.length ≤ n := by simp at ht; omega
        obtain ⟨h1, h2, -, -⟩ := ih rest hrest (i + 3) (c + 1) (if c = 0 then (i : Int) else l)
        have hs : fenceScan (a :: b :: c' :: rest) i c l
            = fenceScan rest (i + 3) (c + 1) (if c = 0 then (i : Int) else l) := by
          rw [fenceScan, if_pos hp]
        rw [hs]
        have h2' := h2 (by omega)
        refine ⟨by omega, ?_, ?_, ?_⟩
        · intro hc
          rw [h2', if_neg (by omega)]
        · intro hno
          exact absurd ((fence_infix_cons _ _).2 (Or.inl ((fence_prefix_iff a b c' rest).2 hp))) hno
        · intro _
          refine ⟨by omega, ?_⟩
          intro hc
          refine ⟨0, ?_, ?_, ?_⟩
          · rw [h2', if_pos hc]; simp
          · simpa using (fence_prefix_iff a b c' rest).2 hp
          · exact not_fence_infix_short _ (by simp)
      · have hrest : (b :: c' :: rest).length ≤ n := by simp at ht ⊢; omega
        obtain ⟨h1, h2, h3, h4⟩ := ih (b :: c' :: rest) hrest (i + 1) c l
        have hs : fenceScan (a :: b :: c' :: rest) i c l
            = fenceScan (b :: c' :: rest) (i + 1) c l := by
          rw [fenceScan, if_neg hp]
        rw [hs]
        have hnp : ¬ fence <+: a :: b :: c' :: rest := fun h => hp ((fence_prefix_iff a b c' rest).1 h)
        have hiff : fence <:+: a :: b :: c' :: rest ↔ fence <:+: b :: c' :: rest := by
          rw [fence_infix_cons]
          exact ⟨fun h => h.resolve_left hnp, Or.inr⟩
        refine ⟨h1, h2, ?_, ?_⟩
        · intro hno
          exact h3 (fun h => hno (hiff.2 h))
        · intro hf
          obtain ⟨h5, h6⟩ := h4 (hiff.1 hf)
          refine ⟨h5, ?_⟩
          intro hc
          obtain ⟨k, hk1, hk2, hk3⟩ := h6 hc
          refine ⟨k + 1, ?_, ?_, ?_⟩
          · rw [hk1]; push_cast; ring
          · simpa using hk2
          · intro hbad
            rw [show k + 1 + 2 = (k + 2) + 1 by ring, List.take_succ_cons, fence_infix_cons] at hbad
            rcases hbad with hbad | hbad
            · exact hnp (hbad.trans ((List.prefix_cons_inj a).2 (List.take_prefix _ _)))
            · exact hk3 hbad

theorem FindLastUnclosedCodeBlock_none (t : Bytes) (h : ¬ fence <:+: t) :
    FindLastUnclosedCodeBlock t = -1 := by
  unfold FindLastUnclosedCodeBlock
  have := (fenceScan_spec t.length t le_rfl 0 0 (-1)).2.2.1 h
  simp [this]

theorem FindLastUnclosedCodeBlock_cases (t : Bytes) :
    FindLastUnclosedCodeBlock t = -1 ∨
    ∃ k : Nat, FindLastUnclosedCodeBlock t = (k : Int) ∧ fence <+: t.drop k ∧
      ¬ fence <:+: t.take (k + 2) := by
  by_cases h : fence <:+: t
  · obtain ⟨-, h2⟩ := (fenceScan_spec t.length t le_rfl 0 0 (-1)).2.2.2 h
    obtain ⟨k, hk1, hk2, hk3⟩ := h2 rfl
    unfold FindLastUnclosedCodeBlock
    simp only
    split_ifs
    · right
      exact ⟨k, by rw [hk1]; simp, hk2, hk3⟩
    · left; rfl
  · left; exact FindLastUnclosedCodeBlock_none t h

theorem closingScan_spec : ∀ (n : Nat) (t : Bytes), t.length ≤ n → ∀ (i : Nat),
    (¬ fence <:+: t → closingScan t i = -1) ∧
    (fence <:+: t → ∃ k : Nat, closingScan t i = ((i + k + 3 : Nat) : Int) ∧ fence <+: t.drop k ∧
        ¬ fence <:+: t.take (k + 2)) := by
  intro n
  induction n with
  | zero =>
    intro t ht i
    have : t = [] := List.eq_nil_of_length_eq_zero (by omega)
    subst this
    exact ⟨by simp [closingScan], fun h => absurd h (not_fence_infix_short [] (by simp))⟩
  | succ n ih =>
    intro t ht i
    match t, ht with
    | [], _ =>
      exact ⟨by simp [closingScan], fun h => absurd h (not_fence_infix_short [] (by simp))⟩
    | [a], _ =>
      exact ⟨by simp [closingScan], fun h => absurd h (not_fence_infix_short [a] (by simp))⟩
    | [a, b], _ =>
      exact ⟨by simp [closingScan], fun h => absurd h (not_fence_infix_short [a, b] (by simp))⟩
    | a :: b :: c' :: rest, ht =>
      by_cases hp : a = 96 ∧ b = 96 ∧ c' = 96
      · have hs : closingScan (a :: b :: c' :: rest) i = ((i + 3 : Nat) : Int) := by
          rw [closingScan, if_pos hp]
        rw [hs]
        refine ⟨?_, ?_⟩
        · intro hno
          exact absurd ((fence_infix_cons _ _).2 (Or.inl ((fence_prefix_iff a b c' rest).2 hp))) hno
        · intro _
          exact ⟨0, by simp, by simpa using (fence_prefix_iff a b c' rest).2 hp,
            not_fence_infix_short _ (by simp)⟩
      · have hrest : (b :: c' :: rest).length ≤ n := by simp at ht ⊢; omega
        obtain ⟨h3, h4⟩ := ih (b :: c' :: rest) hrest (i + 1)
        have hs : closingScan (a :: b :: c' :: rest) i = closingScan (b :: c' :: rest) (i + 1) := by
          rw [closingScan, if_neg hp]
        rw [hs]
        have hnp : ¬ fence <+: a :: b :: c' :: rest := fun h => hp ((fence_prefix_iff a b c' rest).1 h)
        have hiff : fence <:+: a :: b :: c' :: rest ↔ fence <:+: b :: c' :: rest := by
          rw [fence_infix_cons]
          exact ⟨fun h => h.resolve_left hnp, Or.inr⟩
        refine ⟨fun hno => h3 (fun h => hno (hiff.2 h)), ?_⟩
        intro hf
        obtain ⟨k, hk1, hk2, hk3⟩ := h4 (hiff.1 hf)
        refine ⟨k + 1, ?_, ?_, ?_⟩
        · rw [hk1]; congr 1; ring
        · simpa using hk2
        · intro hbad
          rw [show k + 1 + 2 = (k + 2) + 1 by ring, List.take_succ_cons, fence_infix_cons] at hbad
          rcases hbad with hbad | hbad
          · exact hnp (hbad.trans ((List.prefix_cons_inj a).2 (List.take_prefix _ _)))
          · exact hk3 hbad

/-! ## Lemmas on white space -/

theorem leadingSpace_some {s e : Bytes} (h : leadingSpace s = some e) :
    e ∈ spaceRunes ∧ e <+: s := by
  unfold leadingSpace at h
  refine ⟨List.mem_of_find?_eq_some h, ?_⟩
  have := List.find?_some h
  simpa [List.isPrefixOf_iff_prefix] using this

theorem trailingSpace_some {s e : Bytes} (h : trailingSpace s = some e) :
    e ∈ spaceRunes ∧ e <:+ s := by
  unfold trailingSpace at h
  refine ⟨List.mem_of_find?_eq_some h, ?_⟩
  have := List.find?_some h
  simpa [List.isSuffixOf_iff_suffix] using this

theorem leadingSpace_append {e : Bytes} (he : e ∈ spaceRunes) (x : Bytes) :
    leadingSpace (e ++ x) = some e := by
  unfold spaceRunes at he
  fin_cases he <;> simp [leadingSpace, spaceRunes, List.find?, List.isPrefixOf]

theorem spaceRune_length {e : Bytes} (he : e ∈ spaceRunes) : 0 < e.length := by
  unfold spaceRunes at he
  fin_cases he <;> simp

theorem leadingSpace_none_of_initial {s p : Bytes} (hs : leadingSpace s = none) (hp : p <+: s) :
    leadingSpace p = none := by
  cases h : leadingSpace p with
  | none => rfl
  | some e =>
    obtain ⟨he, hpre⟩ := leadingSpace_some h
    obtain ⟨x, hx⟩ := hpre.trans hp
    rw [← hx, leadingSpace_append he] at hs
    cases hs

theorem SpaceRun.leading {w : Bytes} (h : SpaceRun w) (hne : w ≠ []) : leadingSpace w ≠ none := by
  induction h with
  | nil => exact absurd rfl hne
  | cons e w he _ _ =>
    rw [leadingSpace_append he]
    simp

theorem SpaceRun.append {a b : Bytes} (ha : SpaceRun a) (hb : SpaceRun b) : SpaceRun (a ++ b) := by
  induction ha with
  | nil => simpa using hb
  | cons e w he _ ih =>
    rw [List.append_assoc]
    exact SpaceRun.cons e _ he ih

theorem trimLeftLoop_spec : ∀ (n : Nat) (s : Bytes),
    (∃ l, s = l ++ trimLeftLoop n s ∧ SpaceRun l) ∧
    (s.length ≤ n → leadingSpace (trimLeftLoop n s) = none) := by
  intro n
  induction n with
  | zero =>
    intro s
    refine ⟨⟨[], by simp [trimLeftLoop], SpaceRun.nil⟩, ?_⟩
    intro h
    have : s = [] := List.eq_nil_of_length_eq_zero (by omega)
    subst this
    simp [trimLeftLoop, leadingSpace, spaceRunes, List.find?, List.isPrefixOf]
  | succ n ih =>
    intro s
    cases h : leadingSpace s with
    | none =>
      have hs : trimLeftLoop (n + 1) s = s := by simp [trimLeftLoop, h]
      rw [hs]
      exact ⟨⟨[], by simp, SpaceRun.nil⟩, fun _ => h⟩
    | some e =>
      have hs : trimLeftLoop (n + 1) s = trimLeftLoop n (s.drop e.length) := by
        simp [trimLeftLoop, h]
      rw [hs]
      obtain ⟨he, x, hx⟩ := leadingSpace_some h
      have hdrop : s.drop e.length = x := by rw [← hx]; simp
      rw [hdrop]
      obtain ⟨⟨l, hl, hsp⟩, h2⟩ := ih x
      refine ⟨⟨e ++ l, ?_, SpaceRun.cons e l he hsp⟩, ?_⟩
      · rw [List.append_assoc, ← hl, hx]
      · intro hlen
        apply h2
        have := spaceRune_length he
        rw [← hx] at hlen
        simp at hlen
        omega

theorem trimRightLoop_spec : ∀ (n : Nat) (s : Bytes),
    ∃ r, s = trimRightLoop n s ++ r ∧ SpaceRun r := by
  intro n
  induction n with
  | zero =>
    intro s
    exact ⟨[], by simp [trimRightLoop], SpaceRun.nil⟩
  | succ n ih =>
    intro s
    cases h : trailingSpace s with
    | none =>
      have hs : trimRightLoop (n + 1) s = s := by simp [trimRightLoop, h]
      rw [hs]
      exact ⟨[], by simp, SpaceRun.nil⟩
    | some e =>
      have hs : trimRightLoop (n + 1) s = trimRightLoop n (s.take (s.length - e.length)) := by
        simp [trimRightLoop, h]
      rw [hs]
      obtain ⟨he, x, hx⟩ := trailingSpace_some h
      have htake : s.take (s.length - e.length) = x := by rw [← hx]; simp
      rw [htake]
      obtain ⟨r, hr, hsp⟩ := ih x
      refine ⟨r ++ e, ?_, hsp.append ?_⟩
      · rw [← List.append_assoc, ← hr, hx]
      · simpa using SpaceRun.cons e [] he SpaceRun.nil

theorem TrimSpace_decomp (s : Bytes) :
    ∃ l r, s = l ++ TrimSpace s ++ r ∧ SpaceRun l ∧ SpaceRun r := by
  obtain ⟨⟨l, hl, hsl⟩, -⟩ := trimLeftLoop_spec s.length s
  obtain ⟨r, hr, hsr⟩ := trimRightLoop_spec (trimLeftLoop s.length s).length (trimLeftLoop s.length s)
  refine ⟨l, r, ?_, hsl, hsr⟩
  unfold TrimSpace
  simp only
  rw [List.append_assoc, ← hr, ← hl]

theorem TrimSpace_length_le (s : Bytes) : (TrimSpace s).length ≤ s.length := by
  obtain ⟨l, r, h, -, -⟩ := TrimSpace_decomp s
  have := congrArg List.length h
  simp at this
  omega

theorem TrimSpace_within (s : Bytes) : TrimSpace s <:+: s := by
  obtain ⟨l, r, h, -, -⟩ := TrimSpace_decomp s
  exact ⟨l, r, h.symm⟩

theorem TrimSpace_leading (s : Bytes) : leadingSpace (TrimSpace s) = none := by
  obtain ⟨r, hr, -⟩ := trimRightLoop_spec (trimLeftLoop s.length s).length (trimLeftLoop s.length s)
  have h1 := (trimLeftLoop_spec s.length s).2 le_rfl
  exact leadingSpace_none_of_initial h1 ⟨r, hr.symm⟩

theorem TrimSpace_ne_nil {s : Bytes} (hne : s ≠ []) (hs : leadingSpace s = none) :
    TrimSpace s ≠ [] := by
  have h1 : trimLeftLoop s.length s = s := by
    cases hn : s.length with
    | zero => rfl
    | succ n => simp [trimLeftLoop, hs]
  obtain ⟨r, hr, hsp⟩ := trimRightLoop_spec s.length s
  intro hnil
  unfold TrimSpace at hnil
  simp only [h1] at hnil
  rw [hnil, List.nil_append] at hr
  subst hr
  exact hsp.leading hne hs

/-! ## Lemmas on one iteration and on the loop -/

theorem slicePrefix_nat (s : Bytes) (n : Nat) (h : n ≤ s.length) :
    slicePrefix s (n : Int) = some (s.take n) := by
  simp [slicePrefix, h]

theorem sliceSuffix_nat (s : Bytes) (n : Nat) (h : n ≤ s.length) :
    sliceSuffix s (n : Int) = some (s.drop n) := by
  simp [sliceSuffix, h]

theorem FindNextClosingCodeBlock_nat (s : Bytes) (n : Nat) :
    FindNextClosingCodeBlock s (n : Int) = some (closingScan (s.drop n) n) := by
  simp [FindNextClosingCodeBlock]

theorem FindLastUnclosedCodeBlock_le (t : Bytes) (k : Nat)
    (h : FindLastUnclosedCodeBlock t = (k : Int)) : k + 3 ≤ t.length := by
  rcases FindLastUnclosedCodeBlock_cases t with h1 | ⟨k', h1, h2, -⟩
  · rw [h1] at h; omega
  · have : k' = k := by rw [h1] at h; exact_mod_cast h
    subst this
    have := h2.length_le
    simp [fence] at this
    omega

theorem splitPoint_cases (content : Bytes) (limit : Int) (h0 : 0 < limit)
    (hlen : limit < content.length) :
    ∃ m : Nat, boundaryOr (content.take limit.toNat) limit = (m : Int) ∧ 0 < m ∧ (m : Int) ≤ limit ∧
      ((FindLastUnclosedCodeBlock (content.take m) = -1 ∧ splitPoint content limit = some (m : Int)) ∨
       (∃ u : Nat, FindLastUnclosedCodeBlock (content.take m) = (u : Int) ∧
          ((content.length : Int) ≤ limit + 500 ∧
              splitPoint content limit = some (content.length : Int) ∨
           limit + 500 < (content.length : Int) ∧
            ∃ c : Int, FindNextClosingCodeBlock content (m : Int) = some c ∧
              (0 < c ∧ c ≤ limit + 500 ∧ splitPoint content limit = some c ∨
               ¬ (0 < c ∧ c ≤ limit + 500) ∧
                splitPoint content limit =
                  some (if boundaryOr (content.take u) (u : Int) ≤ 0 then limit
                    else boundaryOr (content.take u) (u : Int)))))) := by
  obtain ⟨n, rfl⟩ : ∃ n : Nat, limit = (n : Int) := ⟨limit.toNat, by omega⟩
  have hn : n ≤ content.length := by omega
  have hhead : slicePrefix content (n : Int) = some (content.take n) := slicePrefix_nat _ _ hn
  have hb := boundaryOr_cases (content.take n) (n : Int)
  have hm : ∃ m : Nat, boundaryOr (content.take n) (n : Int) = (m : Int) ∧ 0 < m ∧ m ≤ n := by
    rcases hb with hb | hb
    · exact ⟨n, hb, by omega, le_rfl⟩
    · refine ⟨(boundaryOr (content.take n) (n : Int)).toNat, by omega, by omega, ?_⟩
      have := hb.2
      simp at this
      omega
  obtain ⟨m, hm1, hm2, hm3⟩ := hm
  refine ⟨m, by simpa using hm1, hm2, by exact_mod_cast hm3, ?_⟩
  have hmlen : m ≤ content.length := by omega
  have hcand : slicePrefix content (m : Int) = some (content.take m) := slicePrefix_nat _ _ hmlen
  have hmpos : ¬ ((m : Int) ≤ 0) := by omega
  rcases FindLastUnclosedCodeBlock_cases (content.take m) with hu | ⟨u, hu, -, -⟩
  · left
    refine ⟨hu, ?_⟩
    simp [splitPoint, hhead, hm1, hcand, hu, hmpos]
  · right
    refine ⟨u, hu, ?_⟩
    have hule := FindLastUnclosedCodeBlock_le _ _ hu
    have hulen : u ≤ content.length := by
      simp at hule; omega
    have hbefore : slicePrefix content (u : Int) = some (content.take u) := slicePrefix_nat _ _ hulen
    by_cases hext : (content.length : Int) ≤ (n : Int) + 500
    · left
      refine ⟨hext, ?_⟩
      have hpos : ¬ ((content.length : Int) ≤ 0) := by omega
      simp [splitPoint, hhead, hm1, hcand, hu, hext, hpos]
    · right
      refine ⟨by omega, closingScan (content.drop m) m, FindNextClosingCodeBlock_nat _ _, ?_⟩
      by_cases hc : 0 < closingScan (content.drop m) m ∧ closingScan (content.drop m) m ≤ (n : Int) + 500
      · left
        refine ⟨hc.1, hc.2, ?_⟩
        have hpos : ¬ (closingScan (content.drop m) m ≤ 0) := by omega
        have hext' : (n : Int) + 500 < (content.length : Int) := by omega
        simp [splitPoint, hhead, hm1, hcand, hu, hext', FindNextClosingCodeBlock_nat, hc, hpos]
      · right
        refine ⟨hc, ?_⟩
        have hext' : (n : Int) + 500 < (content.length : Int) := by omega
        simp [splitPoint, hhead, hm1, hcand, hu, hext', FindNextClosingCodeBlock_nat, hc, hbefore]

theorem splitPoint_spec (content : Bytes) (limit : Int) (h0 : 0 < limit)
    (hlen : limit < content.length) :
    ∃ e : Nat, splitPoint content limit = some (e : Int) ∧ 0 < e ∧ e ≤ content.length ∧
      (e : Int) ≤ limit + 500 := by
  obtain ⟨m, hm1, hm2, hm3, hcase⟩ := splitPoint_cases content limit h0 hlen
  rcases hcase with ⟨-, hs⟩ | ⟨u, hu, hcase⟩
  · exact ⟨m, hs, hm2, by omega, by omega⟩
  · rcases hcase with ⟨hext, hs⟩ | ⟨hext, c, -, hcase⟩
    · exact ⟨content.length, hs, by omega, le_rfl, hext⟩
    · rcases hcase with ⟨hc1, hc2, hs⟩ | ⟨-, hs⟩
      · refine ⟨c.toNat, ?_, by omega, by omega, by omega⟩
        rw [hs]; congr 1; omega
      · have hule := FindLastUnclosedCodeBlock_le _ _ hu
        simp at hule
        rcases boundaryOr_cases (content.take u) (u : Int) with hb | hb
        · rw [hb] at hs
          by_cases hu0 : (u : Int) ≤ 0
          · rw [if_pos hu0] at hs
            refine ⟨limit.toNat, ?_, by omega, by omega, by omega⟩
            rw [hs]; congr 1; omega
          · rw [if_neg hu0] at hs
            exact ⟨u, hs, by omega, by omega, by omega⟩
        · have hb2 := hb.2
          simp at hb2
          rw [if_neg (by omega)] at hs
          refine ⟨(boundaryOr (content.take u) (u : Int)).toNat, ?_, by omega, by omega, by omega⟩
          rw [hs]; congr 1; omega

theorem splitLoop_nil (fuel : Nat) (limit : Int) : splitLoop fuel [] limit = .ok [] := by
  cases fuel <;> simp [splitLoop]

theorem splitLoop_fit (fuel : Nat) (content : Bytes) (limit : Int) (hne : content ≠ [])
    (hfit : (content.length : Int) ≤ limit) : splitLoop (fuel + 1) content limit = .ok [content] := by
  have : 0 < content.length := List.length_pos.2 hne
  simp [splitLoop, this, hfit]

theorem splitLoop_step (fuel : Nat) (content : Bytes) (limit : Int) (e : Nat)
    (hlen : limit < content.length) (hs : splitPoint content limit = some (e : Int))
    (he : e ≤ content.length) :
    splitLoop (fuel + 1) content limit =
      match splitLoop fuel (TrimSpace (content.drop e)) limit with
      | .ok messages => .ok (content.take e :: messages)
      | other => other := by
  have hpos : 0 < content.length := by
    rcases content with _ | ⟨a, t⟩
    · have hno : slicePrefix [] limit = none := by
        simp at hlen
        simp [slicePrefix]
        omega
      simp [splitPoint, hno] at hs
    · simp
  have h1 : ¬ ((content.length : Int) ≤ limit) := by omega
  rw [splitLoop]
  simp only [hpos, if_true, h1, if_false, hs, slicePrefix_nat _ _ he, sliceSuffix_nat _ _ he]

/-- More fuel does not change a run that has ended. -/
theorem splitLoop_fuel (limit : Int) : ∀ (fuel : Nat) (content : Bytes),
    splitLoop fuel content limit ≠ .starved →
    splitLoop (fuel + 1) content limit = splitLoop fuel content limit := by
  intro fuel
  induction fuel with
  | zero =>
    intro content h
    rcases content with _ | ⟨a, t⟩
    · simp [splitLoop]
    · simp [splitLoop] at h
  | succ n ih =>
    intro content h
    rw [splitLoop] at h ⊢
    rw [splitLoop]
    split_ifs with h1 h2
    · rfl
    · rw [if_pos h1, if_neg h2] at h
      cases hsp : splitPoint content limit with
      | none => rfl
      | some msgEnd =>
        rw [hsp] at h
        simp only at h ⊢
        cases hp : slicePrefix content msgEnd with
        | none => rfl
        | some chunk =>
          cases hq : sliceSuffix content msgEnd with
          | none => rfl
          | some rest =>
            rw [hp, hq] at h
            simp only at h ⊢
            have hne : splitLoop n (TrimSpace rest) limit ≠ .starved := by
              intro hbad
              rw [hbad] at h
              exact h rfl
            rw [ih _ hne]
    · rfl

theorem splitLoop_fuel_le (limit : Int) (content : Bytes) (n m : Nat) (hnm : n ≤ m)
    (h : splitLoop n content limit ≠ .starved) :
    splitLoop m content limit = splitLoop n content limit := by
  induction m with
  | zero =>
    have : n = 0 := by omega
    subst this
    rfl
  | succ k ih =>
    by_cases hk : n ≤ k
    · rw [splitLoop_fuel limit k content (by rw [ih hk]; exact h), ih hk]
    · have : n = k + 1 := by omega
      subst this
      rfl

theorem split_induction (limit : Int) (h0 : 0 < limit) (P : Bytes → List Bytes → Prop)
    (hnil : P [] [])
    (hfit : ∀ c : Bytes, c ≠ [] → (c.length : Int) ≤ limit → P c [c])
    (hstep : ∀ (c : Bytes) (e : Nat) (ms : List Bytes), limit < (c.length : Int) →
      splitPoint c limit = some (e : Int) → 0 < e → e ≤ c.length →
      SplitMessage (TrimSpace (c.drop e)) limit = .ok ms →
      P (TrimSpace (c.drop e)) ms → P c (c.take e :: ms)) :
    ∀ (fuel : Nat) (content : Bytes), content.length ≤ fuel →
      ∃ ms, splitLoop fuel content limit = .ok ms ∧ P content ms := by
  intro fuel
  induction fuel using Nat.strong_induction_on with
  | _ fuel ih =>
    intro content hle
    by_cases hne : content = []
    · subst hne
      exact ⟨[], splitLoop_nil _ _, hnil⟩
    · have hpos : 0 < content.length := List.length_pos.2 hne
      obtain ⟨n, rfl⟩ : ∃ n, fuel = n + 1 := ⟨fuel - 1, by omega⟩
      by_cases hf : (content.length : Int) ≤ limit
      · exact ⟨[content], splitLoop_fit _ _ _ hne hf, hfit _ hne hf⟩
      · have hlen : limit < (content.length : Int) := by omega
        obtain ⟨e, hs, he0, he1, -⟩ := splitPoint_spec content limit h0 hlen
        have hshort : (TrimSpace (content.drop e)).length ≤ n := by
          have := TrimSpace_length_le (content.drop e)
          simp at this
          omega
        obtain ⟨ms, hms, hP⟩ := ih n (by omega) _ hshort
        have hms' : SplitMessage (TrimSpace (content.drop e)) limit = .ok ms := by
          unfold SplitMessage
          rw [← hms]
          obtain ⟨ms', hms', -⟩ := ih (TrimSpace (content.drop e)).length (by omega) _ le_rfl
          exact (splitLoop_fuel_le limit _ _ n hshort (by rw [hms']; simp)).symm
        refine ⟨content.take e :: ms, ?_, hstep content e ms hlen hs he0 he1 hms' hP⟩
        rw [splitLoop_step _ _ _ _ hlen hs he1, hms]

theorem SplitMessage_induction (limit : Int) (h0 : 0 < limit) (P : Bytes → List Bytes → Prop)
    (hnil : P [] [])
    (hfit : ∀ c : Bytes, c ≠ [] → (c.length : Int) ≤ limit → P c [c])
    (hstep : ∀ (c : Bytes) (e : Nat) (ms : List Bytes), limit < (c.length : Int) →
      splitPoint c limit = some (e : Int) → 0 < e → e ≤ c.length →
      SplitMessage (TrimSpace (c.drop e)) limit = .ok ms →
      P (TrimSpace (c.drop e)) ms → P c (c.take e :: ms))
    (content : Bytes) : ∃ ms, SplitMessage content limit = .ok ms ∧ P content ms :=
  split_induction limit h0 P hnil hfit hstep content.length content le_rfl

theorem splitPoint_inj {content : Bytes} {limit : Int} {a b : Nat}
    (ha : splitPoint content limit = some (a : Int)) (hb : splitPoint content limit = some (b : Int)) :
    a = b := by
  rw [ha] at hb
  simpa using hb

/-- A chunk longer than the limit contains a fence. -/
theorem splitPoint_long_has_fence (content : Bytes) (limit : Int) (h0 : 0 < limit)
    (hlen : limit < content.length) (e : Nat) (hs : splitPoint content limit = some (e : Int))
    (hlong : limit < (e : Int)) : fence <:+: content.take e := by
  obtain ⟨m, -, hm2, hm3, hcase⟩ := splitPoint_cases content limit h0 hlen
  have hmono : fence <:+: content.take m → fence <:+: content.take e := by
    intro h
    have hme : m ≤ e := by omega
    exact h.trans ((List.take_prefix_take_left content hme).isInfix)
  rcases hcase with ⟨-, hs'⟩ | ⟨u, hu, hcase⟩
  · have : e = m := by rw [hs] at hs'; simpa using hs'
    omega
  · have hfm : fence <:+: content.take m := by
      by_contra hno
      have := FindLastUnclosedCodeBlock_none _ hno
      rw [this] at hu
      omega
    rcases hcase with ⟨-, -⟩ | ⟨-, c, -, hcase⟩
    · exact hmono hfm
    · rcases hcase with ⟨-, -, -⟩ | ⟨-, hs'⟩
      · exact hmono hfm
      · exfalso
        have hule := FindLastUnclosedCodeBlock_le _ _ hu
        simp at hule
        rw [hs] at hs'
        rcases boundaryOr_cases (content.take u) (u : Int) with hb | hb
        · rw [hb] at hs'
          split_ifs at hs' <;> simp at hs' <;> omega
        · have hb2 := hb.2
          simp at hb2
          rw [if_neg (by omega)] at hs'
          simp at hs'
          omega

/-- Without a fence in the content the fence guard leaves the candidate offset. -/
theorem splitPoint_no_fence (content : Bytes) (limit : Int) (h0 : 0 < limit)
    (hlen : limit < content.length) (hno : ¬ fence <:+: content) :
    splitPoint content limit = some (boundaryOr (content.take limit.toNat) limit) ∧
    0 < boundaryOr (content.take limit.toNat) limit ∧
    boundaryOr (content.take limit.toNat) limit ≤ content.length := by
  obtain ⟨m, hm1, hm2, hm3, hcase⟩ := splitPoint_cases content limit h0 hlen
  have hnom : ¬ fence <:+: content.take m :=
    fun h => hno (h.trans (List.take_prefix _ _).isInfix)
  have hu := FindLastUnclosedCodeBlock_none _ hnom
  rcases hcase with ⟨-, hs⟩ | ⟨u, hu', -⟩
  · rw [hm1]
    exact ⟨hs, by omega, by omega⟩
  · rw [hu] at hu'
    omega

theorem plainLoop_eq_splitLoop (limit : Int) (h0 : 0 < limit) : ∀ (fuel : Nat) (content : Bytes),
    ¬ fence <:+: content → plainLoop fuel content limit = splitLoop fuel content limit := by
  intro fuel
  induction fuel with
  | zero => intro content _; rfl
  | succ n ih =>
    intro content hno
    rw [plainLoop, splitLoop]
    split_ifs with h1 h2
    · rfl
    · have hlen : limit < (content.length : Int) := by omega
      obtain ⟨hs, hb0, hb1⟩ := splitPoint_no_fence content limit h0 hlen hno
      obtain ⟨k, hk⟩ : ∃ k : Nat, limit = (k : Int) := ⟨limit.toNat, by omega⟩
      have hhead : slicePrefix content limit = some (content.take limit.toNat) := by
        rw [hk]
        simpa using slicePrefix_nat content k (by omega)
      obtain ⟨e, he⟩ : ∃ e : Nat, boundaryOr (content.take limit.toNat) limit = (e : Int) :=
        ⟨(boundaryOr (content.take limit.toNat) limit).toNat, by omega⟩
      have hele : e ≤ content.length := by omega
      rw [hs, hhead]
      simp only [he, slicePrefix_nat _ _ hele, sliceSuffix_nat _ _ hele]
      have hrest : ¬ fence <:+: TrimSpace (content.drop e) :=
        fun h => hno ((h.trans (TrimSpace_within _)).trans (List.drop_suffix _ _).isInfix)
      rw [ih _ hrest]
    · rfl

/-- Chunks are substrings of the content. -/
theorem chunks_within (content : Bytes) (limit : Int) (h0 : 0 < limit) :
    ∃ ms, SplitMessage content limit = .ok ms ∧ ∀ c ∈ ms, c <:+: content := by
  refine SplitMessage_induction limit h0 (fun c ms => ∀ x ∈ ms, x <:+: c) (by simp) ?_ ?_ content
  · intro c _ _ x hx
    simp at hx
    subst hx
    exact List.infix_refl _
  · intro c e ms _ _ _ _ _ ih x hx
    rcases List.mem_cons.1 hx with rfl | hx
    · exact (List.take_prefix _ _).isInfix
    · exact ((ih x hx).trans (TrimSpace_within _)).trans (List.drop_suffix _ _).isInfix

theorem chunks_long_have_fence (content : Bytes) (limit : Int) (h0 : 0 < limit) :
    ∃ ms, SplitMessage content limit = .ok ms ∧
      ∀ c ∈ ms, limit < (c.length : Int) → fence <:+: c := by
  refine SplitMessage_induction limit h0
    (fun _ ms => ∀ x ∈ ms, limit < (x.length : Int) → fence <:+: x) (by simp) ?_ ?_ content
  · intro c _ hfit x hx hl
    simp at hx
    subst hx
    omega
  · intro c e ms hlen hs he0 he1 _ ih x hx hl
    rcases List.mem_cons.1 hx with rfl | hx
    · refine splitPoint_long_has_fence c limit h0 hlen e hs ?_
      simp [List.length_take] at hl
      omega
    · exact ih x hx hl

theorem chunks_trimmed (content : Bytes) (limit : Int) (h0 : 0 < limit) :
    ∃ ms, SplitMessage content limit = .ok ms ∧
      (leadingSpace content = none → ∀ c ∈ ms, TrimSpace c ≠ []) ∧
      (∀ c ∈ ms.tail, TrimSpace c ≠ []) := by
  refine SplitMessage_induction limit h0
    (fun c ms => (leadingSpace c = none → ∀ x ∈ ms, TrimSpace x ≠ []) ∧
      (∀ x ∈ ms.tail, TrimSpace x ≠ [])) (by simp) ?_ ?_ content
  · intro c hne _
    refine ⟨?_, by simp⟩
    intro hl x hx
    simp at hx
    subst hx
    exact TrimSpace_ne_nil hne hl
  · intro c e ms hlen _ he0 he1 _ ih
    have htail : ∀ x ∈ ms, TrimSpace x ≠ [] := ih.1 (TrimSpace_leading _)
    refine ⟨?_, by simpa using htail⟩
    intro hl x hx
    rcases List.mem_cons.1 hx with rfl | hx
    · refine TrimSpace_ne_nil ?_ (leadingSpace_none_of_initial hl (List.take_prefix _ _))
      intro hnil
      have := congrArg List.length hnil
      rw [List.length_take, List.length_nil] at this
      omega
    · exact htail x hx

/-! ## Lemmas on the trace and the fence guard -/

theorem trace_spec (limit : Int) (h0 : 0 < limit) (Q : Bytes × Bytes → Prop)
    (hfit : ∀ c : Bytes, c ≠ [] → (c.length : Int) ≤ limit → Q (c, []))
    (hstep : ∀ (c : Bytes) (e : Nat), limit < (c.length : Int) →
      splitPoint c limit = some (e : Int) → 0 < e → e ≤ c.length → Q (c.take e, c.drop e)) :
    ∀ (fuel : Nat) (content : Bytes), content.length ≤ fuel →
      splitLoop fuel content limit = .ok ((traceLoop fuel content limit).map Prod.fst) ∧
      ∀ p ∈ traceLoop fuel content limit, Q p := by
  intro fuel
  induction fuel with
  | zero =>
    intro content hle
    have : content = [] := List.eq_nil_of_length_eq_zero (by omega)
    subst this
    simp [splitLoop, traceLoop]
  | succ n ih =>
    intro content hle
    by_cases hne : content = []
    · subst hne
      simp [splitLoop, traceLoop]
    · have hpos : 0 < content.length := List.length_pos.2 hne
      by_cases hf : (content.length : Int) ≤ limit
      · rw [splitLoop_fit _ _ _ hne hf]
        simp only [traceLoop, hpos, if_true, hf]
        refine ⟨rfl, ?_⟩
        intro p hp
        simp at hp
        subst hp
        exact hfit _ hne hf
      · have hlen : limit < (content.length : Int) := by omega
        obtain ⟨e, hs, he0, he1, -⟩ := splitPoint_spec content limit h0 hlen
        have hshort : (TrimSpace (content.drop e)).length ≤ n := by
          have := TrimSpace_length_le (content.drop e)
          simp at this
          omega
        obtain ⟨ih1, ih2⟩ := ih _ hshort
        have ht : traceLoop (n + 1) content limit =
            (content.take e, content.drop e) :: traceLoop n (TrimSpace (content.drop e)) limit := by
          rw [traceLoop]
          simp only [hpos, if_true, hf, if_false, hs, slicePrefix_nat _ _ he1,
            sliceSuffix_nat _ _ he1]
        rw [splitLoop_step _ _ _ _ hlen hs he1, ih1, ht]
        refine ⟨rfl, ?_⟩
        intro p hp
        rcases List.mem_cons.1 hp with rfl | hp
        · exact hstep content e hlen hs he0 he1
        · exact ih2 p hp

theorem candidateEnd_eq (content : Bytes) (limit : Int) (m : Nat)
    (h : boundaryOr (content.take limit.toNat) limit = (m : Int)) :
    candidateEnd content limit = (m : Int) := h

/-- A coarse case split of the fence guard, refined by `splitPoint_guard_fine`. -/
theorem splitPoint_guard (content : Bytes) (limit : Int) (h0 : 0 < limit)
    (hlen : limit < content.length) (e : Nat) (hs : splitPoint content limit = some (e : Int)) :
    FindLastUnclosedCodeBlock (content.take e) = -1 ∨ ¬ fence <:+: content.drop e ∨
    guardExtends content limit = true ∨
    (guardRetreats content limit = true ∧ fence <+: content ∧ (e : Int) = limit) := by
  obtain ⟨m, hm1, hm2, hm3, hcase⟩ := splitPoint_cases content limit h0 hlen
  have hce := candidateEnd_eq content limit m hm1
  rcases hcase with ⟨hu, hs'⟩ | ⟨u, hu, hcase⟩
  · left
    have : e = m := splitPoint_inj hs hs'
    rw [this]
    exact hu
  · rcases hcase with ⟨-, hs'⟩ | ⟨hext, c, hc, hcase⟩
    · right; left
      have : e = content.length := splitPoint_inj hs hs'
      rw [this, List.drop_length]
      exact not_fence_infix_short [] (by simp)
    · have hsearch : guardSearches content limit = true := by
        simp [guardSearches, hce, hu, hext]
      rcases hcase with ⟨hc1, hc2, -⟩ | ⟨hcn, hs'⟩
      · right; right; left
        simp [guardExtends, hsearch, closingWithin, hce, hc, hc1, hc2]
      · have hretreat : guardRetreats content limit = true := by
          simp only [guardRetreats, hsearch, closingWithin, hce, hc, Bool.true_and,
            Bool.not_eq_true', decide_eq_false_iff_not]
          exact hcn
        rcases FindLastUnclosedCodeBlock_cases (content.take m) with hu' | ⟨u', hu', hpre, hfirst⟩
        · rw [hu'] at hu; omega
        · have huu : u' = u := by rw [hu] at hu'; exact_mod_cast hu'.symm
          subst huu
          have hule := FindLastUnclosedCodeBlock_le _ _ hu
          simp at hule
          rw [hs] at hs'
          rcases boundaryOr_cases (content.take u') (u' : Int) with hb | hb
          · rw [hb] at hs'
            by_cases hu0 : (u' : Int) ≤ 0
            · right; right; right
              rw [if_pos hu0] at hs'
              have hz : u' = 0 := by omega
              subst hz
              refine ⟨hretreat, ?_, by simpa using hs'⟩
              simpa using hpre.trans (List.take_prefix _ _)
            · left
              rw [if_neg hu0] at hs'
              have heu : e = u' := by simpa using hs'
              subst heu
              apply FindLastUnclosedCodeBlock_none
              intro hbad
              apply hfirst
              rw [List.take_take]
              have : min (e + 2) m = e + 2 := by omega
              rw [this]
              exact hbad.trans (List.take_prefix_take_left content (by omega)).isInfix
          · left
            have hb2 := hb.2
            simp at hb2
            rw [if_neg (by omega)] at hs'
            have heb : (e : Int) = boundaryOr (content.take u') (u' : Int) := by simpa using hs'
            apply FindLastUnclosedCodeBlock_none
            intro hbad
            apply hfirst
            rw [List.take_take]
            have : min (u' + 2) m = u' + 2 := by omega
            rw [this]
            exact hbad.trans (List.take_prefix_take_left content (by omega)).isInfix

/-! ## Lemmas on the reconstruction of the content -/

theorem trimLeftLoop_spaceRun {w : Bytes} (h : SpaceRun w) :
    ∀ n, w.length ≤ n → trimLeftLoop n w = [] := by
  induction h with
  | nil => intro n _; cases n <;> simp [trimLeftLoop, leadingSpace, spaceRunes, List.find?, List.isPrefixOf]
  | cons e w he _ ih =>
    intro n hn
    have hpos := spaceRune_length he
    simp at hn
    obtain ⟨k, rfl⟩ : ∃ k, n = k + 1 := ⟨n - 1, by omega⟩
    simp only [trimLeftLoop, leadingSpace_append he, List.drop_left]
    exact ih k (by omega)

theorem SpaceRun.allSpace {w : Bytes} (h : SpaceRun w) : allSpace w = true := by
  unfold Message.allSpace TrimSpace
  simp only [trimLeftLoop_spaceRun h w.length le_rfl]
  rfl

theorem chunks_weave (content : Bytes) (limit : Int) (h0 : 0 < limit) :
    ∃ ms, SplitMessage content limit = .ok ms ∧
      ∃ ws : List Bytes, ws.length = ms.length ∧ (∀ w ∈ ws, SpaceRun w) ∧
        content = weave ms ws := by
  have key : ∃ ms, SplitMessage content limit = .ok ms ∧
      ((ms = [] ∧ content = []) ∨ ∀ r, SpaceRun r →
        ∃ ws : List Bytes, ws.length = ms.length ∧ (∀ w ∈ ws, SpaceRun w) ∧
          content ++ r = weave ms ws) := by
    refine SplitMessage_induction limit h0
      (fun c ms => (ms = [] ∧ c = []) ∨ ∀ r, SpaceRun r →
        ∃ ws : List Bytes, ws.length = ms.length ∧ (∀ w ∈ ws, SpaceRun w) ∧ c ++ r = weave ms ws)
      (Or.inl ⟨rfl, rfl⟩) ?_ ?_ content
    · intro c _ _
      right
      intro r hr
      refine ⟨[r], rfl, ?_, by simp [weave]⟩
      intro w hw
      simp at hw
      subst hw
      exact hr
    · intro c e ms _ _ _ _ _ ih
      right
      intro r0 hr0
      obtain ⟨l, r, hd, hl, hr⟩ := TrimSpace_decomp (c.drop e)
      have hc : c ++ r0 = c.take e ++ (l ++ (TrimSpace (c.drop e) ++ (r ++ r0))) := by
        conv_lhs => rw [← List.take_append_drop e c, hd]
        simp [List.append_assoc]
      rcases ih with ⟨rfl, hT⟩ | ih
      · refine ⟨[l ++ (r ++ r0)], rfl, ?_, ?_⟩
        · intro w hw
          simp only [List.mem_singleton] at hw
          subst hw
          exact hl.append (hr.append hr0)
        · rw [hc, hT]
          simp [weave]
      · obtain ⟨ws, hw1, hw2, hw3⟩ := ih (r ++ r0) (hr.append hr0)
        refine ⟨l :: ws, by simp [hw1], ?_, ?_⟩
        · intro w hw
          rcases List.mem_cons.1 hw with rfl | hw
          · exact hl
          · exact hw2 w hw
        · rw [hc, hw3]
          simp [weave]
  obtain ⟨ms, h1, h2⟩ := key
  refine ⟨ms, h1, ?_⟩
  rcases h2 with ⟨rfl, rfl⟩ | h2
  · exact ⟨[], rfl, by simp, rfl⟩
  · obtain ⟨ws, hw1, hw2, hw3⟩ := h2 [] SpaceRun.nil
    exact ⟨ws, hw1, hw2, by simpa using hw3⟩

theorem spaceRune_tail_cont {e : Bytes} (he : e ∈ spaceRunes) : ∀ z ∈ e.tail, isCont z = true := by
  unfold spaceRunes at he
  fin_cases he <;> simp [isCont]

theorem spaceRune_head_not_cont {e : Bytes} (he : e ∈ spaceRunes) :
    ∀ z ∈ e.head?, isCont z = false := by
  unfold spaceRunes at he
  fin_cases he <;> simp [isCont]

theorem SpaceRun.head_not_cont {r : Bytes} (h : SpaceRun r) : ∀ z ∈ r.head?, isCont z = false := by
  induction h with
  | nil => simp
  | cons e w he _ _ =>
    have hne : e ≠ [] := List.ne_nil_of_length_pos (spaceRune_length he)
    rw [List.head?_append_of_ne_nil _ hne]
    exact spaceRune_head_not_cont he

theorem leadingSpace_append_right (a b : Bytes) (hne : a ≠ [])
    (hb : ∀ z ∈ b.head?, isCont z = false) : leadingSpace (a ++ b) = leadingSpace a := by
  cases ha : leadingSpace a with
  | some e =>
    obtain ⟨he, a', rfl⟩ := leadingSpace_some ha
    rw [List.append_assoc]
    exact leadingSpace_append he _
  | none =>
    cases hab : leadingSpace (a ++ b) with
    | none => rfl
    | some e =>
      exfalso
      obtain ⟨he, hpre⟩ := leadingSpace_some hab
      by_cases hlen : e.length ≤ a.length
      · have h1 : e <+: a := List.prefix_of_prefix_length_le hpre (List.prefix_append a b) hlen
        obtain ⟨x, rfl⟩ := h1
        rw [leadingSpace_append he] at ha
        cases ha
      · have h1 : a <+: e :=
          List.prefix_of_prefix_length_le (List.prefix_append a b) hpre (by omega)
        obtain ⟨y, rfl⟩ := h1
        have hy : y <+: b := (List.prefix_append_right_inj a).1 hpre
        rcases y with _ | ⟨y0, y'⟩
        · simp at hlen
        · obtain ⟨b', rfl⟩ := hy
          have hcont : isCont y0 = true := by
            apply spaceRune_tail_cont he
            rcases a with _ | ⟨a0, a'⟩
            · exact absurd rfl hne
            · simp
          have := hb y0 (by simp)
          rw [hcont] at this
          cases this

theorem deleteSpaceLoop_fuel : ∀ (n m : Nat) (s : Bytes), s.length ≤ n → s.length ≤ m →
    deleteSpaceLoop n s = deleteSpaceLoop m s := by
  intro n
  induction n with
  | zero =>
    intro m s hn _
    have : s = [] := List.eq_nil_of_length_eq_zero (by omega)
    subst this
    cases m <;> simp [deleteSpaceLoop]
  | succ n ih =>
    intro m s hn hm
    rcases s with _ | ⟨a, t⟩
    · cases m <;> simp [deleteSpaceLoop]
    · obtain ⟨k, rfl⟩ : ∃ k, m = k + 1 := ⟨m - 1, by simp at hm; omega⟩
      simp only [deleteSpaceLoop]
      simp at hn hm
      cases h : leadingSpace (a :: t) with
      | none => simp only; rw [ih k t (by omega) (by omega)]
      | some e =>
        simp only
        have hpos := spaceRune_length (leadingSpace_some h).1
        exact ih k _ (by simp; omega) (by simp; omega)

theorem deleteSpace_nil : deleteSpace [] = [] := rfl

theorem deleteSpace_some {s e : Bytes} (h : leadingSpace s = some e) :
    deleteSpace s = deleteSpace (s.drop e.length) := by
  rcases s with _ | ⟨a, t⟩
  · simp [leadingSpace, spaceRunes, List.find?, List.isPrefixOf] at h
  · have hpos := spaceRune_length (leadingSpace_some h).1
    unfold deleteSpace
    simp only [List.length_cons, deleteSpaceLoop, h]
    exact deleteSpaceLoop_fuel _ _ _ (by simp; omega) le_rfl

theorem deleteSpace_none {a : Nat} {t : Bytes} (h : leadingSpace (a :: t) = none) :
    deleteSpace (a :: t) = a :: deleteSpace t := by
  unfold deleteSpace
  simp only [List.length_cons, deleteSpaceLoop, h]

theorem deleteSpace_append : ∀ (n : Nat) (a b : Bytes), a.length ≤ n →
    (∀ z ∈ b.head?, isCont z = false) →
    deleteSpace (a ++ b) = deleteSpace a ++ deleteSpace b := by
  intro n
  induction n with
  | zero =>
    intro a b hn _
    have : a = [] := List.eq_nil_of_length_eq_zero (by omega)
    subst this
    simp [deleteSpace_nil]
  | succ n ih =>
    intro a b hn hb
    rcases a with _ | ⟨x, t⟩
    · simp [deleteSpace_nil]
    · have hls := leadingSpace_append_right (x :: t) b (by simp) hb
      simp at hn
      cases h : leadingSpace (x :: t) with
      | none =>
        rw [h] at hls
        rw [List.cons_append] at hls ⊢
        rw [deleteSpace_none hls, deleteSpace_none h, ih t b (by omega) hb]
        rfl
      | some e =>
        rw [h] at hls
        obtain ⟨he, a', ha'⟩ := leadingSpace_some h
        have hpos := spaceRune_length he
        rw [deleteSpace_some hls, deleteSpace_some h, ← ha']
        rw [List.append_assoc, List.drop_left, List.drop_left]
        apply ih a' b _ hb
        have := congrArg List.length ha'
        simp at this
        omega

theorem deleteSpace_spaceRun {l : Bytes} (h : SpaceRun l) (x : Bytes) :
    deleteSpace (l ++ x) = deleteSpace x := by
  induction h with
  | nil => rfl
  | cons e w he _ ih =>
    rw [List.append_assoc, deleteSpace_some (leadingSpace_append he _), List.drop_left]
    exact ih

theorem spaceThenCont_final (a b : Bytes) (h : spaceThenCont (a ++ b) = false) :
    spaceThenCont b = false := by
  induction a with
  | nil => simpa using h
  | cons x t ih =>
    rw [List.cons_append, spaceThenCont, Bool.or_eq_false_iff] at h
    exact ih h.2

theorem spaceThenCont_initial (a b : Bytes) (h : spaceThenCont (a ++ b) = false) :
    spaceThenCont a = false := by
  induction a with
  | nil => rfl
  | cons x t ih =>
    rw [List.cons_append, spaceThenCont, Bool.or_eq_false_iff] at h
    rw [spaceThenCont, Bool.or_eq_false_iff]
    refine ⟨?_, ih h.2⟩
    cases hl : leadingSpace (x :: t) with
    | none => rfl
    | some e =>
      obtain ⟨he, a', ha'⟩ := leadingSpace_some hl
      have h1 := h.1
      have hd : List.drop e.length (x :: t) = a' := by rw [← ha']; simp
      rw [← List.cons_append, ← ha', List.append_assoc, leadingSpace_append he] at h1
      simp only [List.drop_left] at h1
      simp only [hd]
      rcases a' with _ | ⟨b0, a''⟩
      · rfl
      · simpa using h1

theorem spaceThenCont_after_run {l : Bytes} (hl : SpaceRun l) (y : Bytes) (hne : l ≠ [])
    (h : spaceThenCont (l ++ y) = false) : ∀ z ∈ y.head?, isCont z = false := by
  induction hl with
  | nil => exact absurd rfl hne
  | cons e w he hw ih =>
    by_cases hwn : w = []
    · subst hwn
      rw [List.append_nil] at h
      have hpos := spaceRune_length he
      rcases hey : e ++ y with _ | ⟨a0, t⟩
      · have := congrArg List.length hey
        rw [List.length_append, List.length_nil] at this
        omega
      · rw [hey, spaceThenCont, Bool.or_eq_false_iff, ← hey, leadingSpace_append he] at h
        have h1 := h.1
        simp only [List.drop_left] at h1
        rcases y with _ | ⟨y0, y'⟩
        · simp
        · simpa using h1
    · rw [List.append_assoc] at h
      exact ih hwn (spaceThenCont_final _ _ h)

theorem deleteSpace_append' (a b : Bytes) (hb : ∀ z ∈ b.head?, isCont z = false) :
    deleteSpace (a ++ b) = deleteSpace a ++ deleteSpace b :=
  deleteSpace_append a.length a b le_rfl hb

theorem deleteSpace_of_spaceRun {r : Bytes} (h : SpaceRun r) : deleteSpace r = [] := by
  have := deleteSpace_spaceRun h []
  simpa [deleteSpace_nil] using this

/-- Deleting white space is blind to the white space trimmed around `t`. -/
theorem deleteSpace_trimmed (q l t r : Bytes) (hl : SpaceRun l) (hr : SpaceRun r)
    (h : spaceThenCont (l ++ t ++ r) = false) :
    deleteSpace (q ++ (l ++ t ++ r)) = deleteSpace (q ++ t) := by
  have h1 : deleteSpace (q ++ (l ++ t ++ r)) = deleteSpace (q ++ (l ++ t)) := by
    rw [← List.append_assoc q, deleteSpace_append' _ r hr.head_not_cont,
      deleteSpace_of_spaceRun hr, List.append_nil]
  rw [h1]
  by_cases hne : l = []
  · subst hne
    rfl
  · have ht : ∀ z ∈ t.head?, isCont z = false := by
      rw [List.append_assoc] at h
      have := spaceThenCont_after_run hl (t ++ r) hne h
      rcases t with _ | ⟨t0, t'⟩
      · simp
      · simpa using this
    have hlt : ∀ z ∈ (l ++ t).head?, isCont z = false := by
      rw [List.head?_append_of_ne_nil _ hne]
      exact hl.head_not_cont
    rw [deleteSpace_append' q (l ++ t) hlt, deleteSpace_spaceRun hl, deleteSpace_append' q t ht]

theorem chunks_deleteSpace (content : Bytes) (limit : Int) (h0 : 0 < limit) :
    ∃ ms, SplitMessage content limit = .ok ms ∧
      (spaceThenCont content = false → deleteSpace ms.flatten = deleteSpace content) := by
  have key : ∃ ms, SplitMessage content limit = .ok ms ∧
      (spaceThenCont content = false →
        ∀ p : Bytes, deleteSpace (p ++ ms.flatten) = deleteSpace (p ++ content)) := by
    refine SplitMessage_induction limit h0
      (fun c ms => spaceThenCont c = false →
        ∀ p : Bytes, deleteSpace (p ++ ms.flatten) = deleteSpace (p ++ c))
      (by simp) ?_ ?_ content
    · intro c _ _ _ p
      simp
    · intro c e ms _ _ _ _ _ ih hc p
      obtain ⟨l, r, hd, hl, hr⟩ := TrimSpace_decomp (c.drop e)
      have hdrop : spaceThenCont (c.drop e) = false := by
        rw [← List.take_append_drop e c] at hc
        exact spaceThenCont_final _ _ hc
      have hltr : spaceThenCont (l ++ TrimSpace (c.drop e) ++ r) = false := by
        rw [← hd]; exact hdrop
      have hT : spaceThenCont (TrimSpace (c.drop e)) = false := by
        have h1 := hltr
        rw [List.append_assoc] at h1
        exact spaceThenCont_initial _ _ (spaceThenCont_final _ _ h1)
      have hrhs : p ++ c = (p ++ c.take e) ++ (l ++ TrimSpace (c.drop e) ++ r) := by
        rw [← hd, List.append_assoc, List.take_append_drop]
      rw [hrhs, deleteSpace_trimmed _ _ _ _ hl hr hltr, ← ih hT (p ++ c.take e)]
      simp
  obtain ⟨ms, h1, h2⟩ := key
  exact ⟨ms, h1, fun h => by simpa using h2 h []⟩

/-! ## Lemmas on the chunk sequence -/

/-- Every chunk, the last included, is at most `limit + 500` bytes long. -/
theorem chunks_le_extended (content : Bytes) (limit : Int) (h0 : 0 < limit) :
    ∃ ms, SplitMessage content limit = .ok ms ∧ ∀ c ∈ ms, (c.length : Int) ≤ limit + 500 := by
  refine SplitMessage_induction limit h0 (fun _ ms => ∀ c ∈ ms, (c.length : Int) ≤ limit + 500)
    (by simp) ?_ ?_ content
  · intro c _ hfit x hx
    simp at hx
    subst hx
    omega
  · intro c e ms hlen hs he0 he1 _ ih x hx
    obtain ⟨e', hs', -, -, hb⟩ := splitPoint_spec c limit h0 hlen
    have : e' = e := by rw [hs] at hs'; simpa using hs'.symm
    subst this
    rcases List.mem_cons.1 hx with rfl | hx
    · simp [List.length_take]
      omega
    · exact ih x hx


/-- Chunks are non-empty and there are at most `len(content)` of them. -/
theorem chunks_nonempty (content : Bytes) (limit : Int) (h0 : 0 < limit) :
    ∃ ms, SplitMessage content limit = .ok ms ∧ (∀ c ∈ ms, 1 ≤ c.length) ∧
      ms.length ≤ content.length := by
  refine SplitMessage_induction limit h0
    (fun c ms => (∀ x ∈ ms, 1 ≤ x.length) ∧ ms.length ≤ c.length) (by simp) ?_ ?_ content
  · intro c hne _
    have := List.length_pos.2 hne
    refine ⟨?_, by simpa using this⟩
    intro x hx
    simp at hx
    subst hx
    exact this
  · intro c e ms _ _ he0 he1 _ ih
    refine ⟨?_, ?_⟩
    · intro x hx
      rcases List.mem_cons.1 hx with rfl | hx
      · simp [List.length_take]
        omega
      · exact ih.1 x hx
    · have := TrimSpace_length_le (c.drop e)
      have h2 := ih.2
      simp at this ⊢
      omega

/-! ## Lemmas on valid UTF-8 -/

theorem leadingSpace_cont (c : Nat) (x : Bytes) (hc : isCont c = true) :
    leadingSpace (c :: x) = none := by
  cases h : leadingSpace (c :: x) with
  | none => rfl
  | some e =>
    exfalso
    obtain ⟨he, hpre⟩ := leadingSpace_some h
    have hpos := spaceRune_length he
    rcases e with _ | ⟨e0, e'⟩
    · simp at hpos
    · have h0 : e0 = c := by
        obtain ⟨y, hy⟩ := hpre
        simp at hy
        exact hy.1
      have := spaceRune_head_not_cont he e0 (by simp)
      rw [h0, hc] at this
      cases this

theorem runeWidth_spaceRune {e : Bytes} (he : e ∈ spaceRunes) (x : Bytes) :
    runeWidth (e ++ x) = e.length := by
  unfold spaceRunes at he
  fin_cases he <;> simp [runeWidth, isCont, secondLo, secondHi]

theorem lt_length_of_getD_ne {t : Bytes} {i : Nat} (h : t.getD i 0 ≠ 0) : i < t.length := by
  by_contra hlt
  exact h (List.getD_eq_default _ _ (Nat.le_of_not_lt hlt))

theorem getD_ne_of_isCont {t : Bytes} {i : Nat} (h : isCont (t.getD i 0) = true) :
    t.getD i 0 ≠ 0 := by
  intro h0
  rw [h0] at h
  simp [isCont] at h

theorem isCont_of_second {b0 b1 : Nat} (h1 : secondLo b0 ≤ b1) (h2 : b1 ≤ secondHi b0) :
    isCont b1 = true := by
  unfold isCont
  unfold secondLo at h1
  unfold secondHi at h2
  simp only [decide_eq_true_eq]
  split_ifs at h1 h2 <;> omega

theorem runeWidth_le (s : Bytes) : runeWidth s ≤ s.length := by
  rcases s with _ | ⟨b0, t⟩
  · simp [runeWidth]
  · rw [runeWidth]
    split_ifs with h1 h2 h3 h4 h5 h6 h7
    · simp
    · have := lt_length_of_getD_ne (getD_ne_of_isCont h3)
      simp; omega
    · simp
    · have := lt_length_of_getD_ne (getD_ne_of_isCont h5.2.2)
      simp; omega
    · simp
    · have := lt_length_of_getD_ne (getD_ne_of_isCont h7.2.2.2)
      simp; omega
    · simp
    · simp

theorem runeWidth_head_not_cont (a : Nat) (t : Bytes) (h : runeWidth (a :: t) ≠ 0) :
    isCont a = false := by
  rw [runeWidth] at h
  unfold isCont
  split_ifs at h <;> simp <;> intros <;> omega

theorem take_eq_getD (t : Bytes) : ∀ (k : Nat), k ≤ t.length →
    ∀ z ∈ t.take k, ∃ i, i < k ∧ z = t.getD i 0 := by
  intro k hk z hz
  obtain ⟨i, hi, rfl⟩ := List.getElem_of_mem hz
  simp at hi
  refine ⟨i, hi.1, ?_⟩
  simp [List.getElem_take, List.getElem?_eq_getElem hi.2]

theorem runeWidth_tail_cont (a : Nat) (t : Bytes) :
    ∀ z ∈ t.take (runeWidth (a :: t) - 1), isCont z = true := by
  intro z hz
  have hle := runeWidth_le (a :: t)
  obtain ⟨i, hi, rfl⟩ := take_eq_getD t _ (by simp at hle; omega) z hz
  rw [runeWidth] at hi
  split_ifs at hi with h1 h2 h3 h4 h5 h6 h7
  · omega
  · have : i = 0 := by omega
    subst this; exact h3
  · omega
  · obtain ⟨hb1, hb2, hb3⟩ := h5
    have hi' : i = 0 ∨ i = 1 := by omega
    rcases hi' with rfl | rfl
    · exact isCont_of_second hb1 hb2
    · exact hb3
  · omega
  · obtain ⟨hb1, hb2, hb3, hb4⟩ := h7
    have hi' : i = 0 ∨ i = 1 ∨ i = 2 := by omega
    rcases hi' with rfl | rfl | rfl
    · exact isCont_of_second hb1 hb2
    · exact hb3
    · exact hb4
  · omega
  · omega

theorem validLoop_head_not_cont : ∀ (n : Nat) (s : Bytes), validLoop n s = true →
    ∀ z ∈ s.head?, isCont z = false := by
  intro n s h z hz
  rcases s with _ | ⟨a, t⟩
  · simp at hz
  · simp at hz
    subst hz
    rcases n with _ | n
    · simp [validLoop] at h
    · simp only [validLoop, Bool.and_eq_true, decide_eq_true_eq] at h
      exact runeWidth_head_not_cont _ t h.1

theorem spaceThenCont_conts_valid : ∀ (n : Nat) (s : Bytes), validLoop n s = true →
    ∀ cs : Bytes, (∀ c ∈ cs, isCont c = true) → spaceThenCont (cs ++ s) = false := by
  intro n
  induction n with
  | zero =>
    intro s hs cs hcs
    rcases s with _ | ⟨a, t⟩
    · rw [List.append_nil]
      induction cs with
      | nil => rfl
      | cons c cs ih =>
        rw [spaceThenCont, leadingSpace_cont c cs (hcs c (by simp))]
        simpa using ih (fun c' hc' => hcs c' (by simp [hc']))
    · simp [validLoop] at hs
  | succ n ih =>
    intro s hs cs hcs
    induction cs with
    | cons c cs ihc =>
      rw [List.cons_append, spaceThenCont, leadingSpace_cont c _ (hcs c (by simp))]
      simpa using ihc (fun c' hc' => hcs c' (by simp [hc']))
    | nil =>
      rw [List.nil_append]
      rcases s with _ | ⟨a, t⟩
      · rfl
      · simp only [validLoop, Bool.and_eq_true, decide_eq_true_eq] at hs
        obtain ⟨hw, hrest⟩ := hs
        have hle := runeWidth_le (a :: t)
        have hdrop : (a :: t).drop (runeWidth (a :: t)) = t.drop (runeWidth (a :: t) - 1) := by
          obtain ⟨k, hk⟩ : ∃ k, runeWidth (a :: t) = k + 1 := ⟨runeWidth (a :: t) - 1, by omega⟩
          rw [hk]; simp
        rw [spaceThenCont, Bool.or_eq_false_iff]
        constructor
        · cases hl : leadingSpace (a :: t) with
          | none => rfl
          | some e =>
            obtain ⟨he, x, hx⟩ := leadingSpace_some hl
            have hwe : runeWidth (a :: t) = e.length := by
              rw [← hx]; exact runeWidth_spaceRune he x
            simp only
            rw [← hwe]
            have hh := validLoop_head_not_cont n _ hrest
            rcases hd : (a :: t).drop (runeWidth (a :: t)) with _ | ⟨b, r⟩
            · rfl
            · rw [hd] at hh
              exact hh b (by simp)
        · have ht : t = t.take (runeWidth (a :: t) - 1) ++ t.drop (runeWidth (a :: t) - 1) :=
            (List.take_append_drop _ _).symm
          rw [ht, ← hdrop]
          exact ih _ hrest _ (runeWidth_tail_cont a t)

/-- In a valid UTF-8 string no white-space rune is followed by a continuation byte. -/
theorem ValidString_spaceThenCont (s : Bytes) (h : ValidString s = true) :
    spaceThenCont s = false := by
  have := spaceThenCont_conts_valid s.length s h [] (by simp)
  simpa using this

/-! ## Lemmas on the greedy scan -/

theorem fenceScan_greedy : ∀ (n : Nat) (t : Bytes), t.length ≤ n → ∀ (i c : Nat) (l : Int),
    (fenceScan t i c l).1 = c + (greedyFences t i).length ∧
    (c = 0 → (fenceScan t i c l).2 = (((greedyFences t i).head?).map Int.ofNat).getD l) := by
  intro n
  induction n with
  | zero =>
    intro t ht i c l
    have : t = [] := List.eq_nil_of_length_eq_zero (by omega)
    subst this
    simp [fenceScan, greedyFences]
  | succ n ih =>
    intro t ht i c l
    match t, ht with
    | [], _ => simp [fenceScan, greedyFences]
    | [a], _ => simp [fenceScan, greedyFences]
    | [a, b], _ => simp [fenceScan, greedyFences]
    | a :: b :: c' :: rest, ht =>
      by_cases hp : a = 96 ∧ b = 96 ∧ c' = 96
      · have hrest : rest.length ≤ n := by simp at ht; omega
        obtain ⟨h1, -⟩ := ih rest hrest (i + 3) (c + 1) (if c = 0 then (i : Int) else l)
        have h2 := (fenceScan_spec n rest hrest (i + 3) (c + 1)
          (if c = 0 then (i : Int) else l)).2.1 (by omega)
        rw [fenceScan, if_pos hp, greedyFences, if_pos hp]
        refine ⟨by rw [h1]; simp; omega, ?_⟩
        intro hc
        rw [h2, if_pos hc]
        simp
      · have hrest : (b :: c' :: rest).length ≤ n := by simp at ht ⊢; omega
        rw [fenceScan, if_neg hp, greedyFences, if_neg hp]
        exact ih (b :: c' :: rest) hrest (i + 1) c l

/-- The code returns the first counted fence whenever the count is odd. -/
theorem FindLastUnclosedCodeBlock_greedy (text : Bytes) :
    FindLastUnclosedCodeBlock text =
      if (greedyFences text 0).length % 2 = 1 then
        (((greedyFences text 0).head?).map Int.ofNat).getD (-1)
      else -1 := by
  obtain ⟨h1, h2⟩ := fenceScan_greedy text.length text le_rfl 0 0 (-1)
  unfold FindLastUnclosedCodeBlock
  simp only [h1, h2 rfl, Nat.zero_add]

theorem fenceAt_iff (text : Bytes) (j : Nat) : fenceAt text j = true ↔ fence <+: text.drop j := by
  unfold fenceAt
  rw [decide_eq_true_iff, List.prefix_iff_eq_take]
  have hl : fence.length = 3 := rfl
  rw [hl]
  exact ⟨fun h => h.symm, fun h => h.symm⟩

theorem fenceAt_within (text : Bytes) (j : Nat) (h : fenceAt text j = true) :
    j + 3 ≤ text.length ∧ fence <:+: text.take (j + 3) := by
  have hp := (fenceAt_iff text j).1 h
  have hlen := hp.length_le
  simp [fence] at hlen
  refine ⟨by omega, ?_⟩
  obtain ⟨x, hx⟩ := hp
  refine ⟨text.take j, [], ?_⟩
  have h1 : text.take (j + 3) = text.take j ++ (text.drop j).take 3 := by
    rw [List.take_add]
  have h2 : (text.drop j).take 3 = fence := by
    rw [← hx]
    simp [fence]
  rw [h1, h2]
  simp

theorem NoStraddle.mono {a a' b : Bytes} (h : NoStraddle a b) (hs : a' <:+ a) :
    NoStraddle a' b :=
  ⟨fun hx => h.1 ⟨hx.1.trans hs, hx.2⟩, fun hx => h.2 ⟨hx.1.trans hs, hx.2⟩⟩

theorem greedyFences_append : ∀ (n : Nat) (a b : Bytes), a.length ≤ n → NoStraddle a b →
    ∀ i : Nat, greedyFences (a ++ b) i = greedyFences a i ++ greedyFences b (i + a.length) := by
  intro n
  induction n with
  | zero =>
    intro a b ha _ i
    have : a = [] := List.eq_nil_of_length_eq_zero (by omega)
    subst this
    simp [greedyFences]
  | succ n ih =>
    intro a b ha hc i
    match a, ha, hc with
    | [], _, _ => simp [greedyFences]
    | [x], _, hc =>
      match b, hc with
      | [], _ => simp [greedyFences]
      | [b0], _ => simp [greedyFences]
      | b0 :: b1 :: rest, hc =>
        have hp : ¬ (x = 96 ∧ b0 = 96 ∧ b1 = 96) := by
          rintro ⟨rfl, rfl, rfl⟩
          exact hc.2 ⟨List.suffix_refl _, ⟨rest, rfl⟩⟩
        simp only [List.singleton_append, greedyFences, if_neg hp, List.nil_append,
          List.length_singleton]
    | [x, y], ha, hc =>
      match b, hc with
      | [], _ => simp [greedyFences]
      | b0 :: rest, hc =>
        have hp : ¬ (x = 96 ∧ y = 96 ∧ b0 = 96) := by
          rintro ⟨rfl, rfl, rfl⟩
          exact hc.1 ⟨List.suffix_refl _, ⟨rest, rfl⟩⟩
        have hs : [y] <:+ [x, y] := ⟨[x], rfl⟩
        have h1 := ih [y] (b0 :: rest) (by simp at ha ⊢; omega) (hc.mono hs) (i + 1)
        have e1 : greedyFences ([x, y] ++ b0 :: rest) i
            = greedyFences ([y] ++ b0 :: rest) (i + 1) := by
          show greedyFences (x :: y :: b0 :: rest) i = greedyFences (y :: b0 :: rest) (i + 1)
          rw [greedyFences, if_neg hp]
        have e2 : greedyFences [x, y] i = greedyFences [y] (i + 1) := by
          simp [greedyFences]
        have hl : i + ([x, y] : Bytes).length = i + 1 + ([y] : Bytes).length := by simp
        rw [e1, h1, e2, hl]
    | x :: y :: z :: rest, ha, hc =>
      by_cases hp : x = 96 ∧ y = 96 ∧ z = 96
      · have hs : rest <:+ x :: y :: z :: rest := ⟨[x, y, z], rfl⟩
        have h1 := ih rest b (by simp at ha; omega) (hc.mono hs) (i + 3)
        have e1 : greedyFences (x :: y :: z :: rest ++ b) i = i :: greedyFences (rest ++ b) (i + 3) := by
          show greedyFences (x :: y :: z :: (rest ++ b)) i = _
          rw [greedyFences, if_pos hp]
        have e2 : greedyFences (x :: y :: z :: rest) i = i :: greedyFences rest (i + 3) := by
          rw [greedyFences, if_pos hp]
        have hl : i + (x :: y :: z :: rest).length = i + 3 + rest.length := by simp; omega
        rw [e1, h1, e2, hl]
        rfl
      · have hs : y :: z :: rest <:+ x :: y :: z :: rest := ⟨[x], rfl⟩
        have h1 := ih (y :: z :: rest) b (by simp at ha ⊢; omega) (hc.mono hs) (i + 1)
        have e1 : greedyFences (x :: y :: z :: rest ++ b) i
            = greedyFences (y :: z :: rest ++ b) (i + 1) := by
          show greedyFences (x :: y :: z :: (rest ++ b)) i = greedyFences (y :: z :: (rest ++ b)) (i + 1)
          rw [greedyFences, if_neg hp]
        have e2 : greedyFences (x :: y :: z :: rest) i = greedyFences (y :: z :: rest) (i + 1) := by
          rw [greedyFences, if_neg hp]
        have hl : i + (x :: y :: z :: rest).length = i + 1 + (y :: z :: rest).length := by
          simp; omega
        rw [e1, h1, e2, hl]

theorem greedyFences_closing : ∀ (k : Nat) (d : Bytes) (i : Nat), fence <+: d.drop k →
    ¬ fence <:+: d.take (k + 2) → greedyFences (d.take (k + 3)) i = [i + k] := by
  intro k
  induction k with
  | zero =>
    intro d i hp _
    rw [List.drop_zero] at hp
    obtain ⟨x, rfl⟩ := hp
    simp [fence, greedyFences]
  | succ k ih =>
    intro d i hp hno
    rcases d with _ | ⟨x, d'⟩
    · exact absurd hp (not_fence_prefix_short _ (by simp))
    · rw [List.drop_succ_cons] at hp
      have hlen := hp.length_le
      simp [fence] at hlen
      have hno' : ¬ fence <:+: d'.take (k + 2) := by
        intro h
        apply hno
        rw [show k + 1 + 2 = (k + 2) + 1 by ring, List.take_succ_cons]
        exact (fence_infix_cons _ _).2 (Or.inr h)
      have hih := ih d' (i + 1) hp hno'
      rcases hd : d'.take (k + 3) with _ | ⟨y, _ | ⟨z, rest⟩⟩
      · have := congrArg List.length hd
        rw [List.length_take, List.length_nil] at this
        omega
      · have := congrArg List.length hd
        rw [List.length_take] at this
        simp only [List.length_cons, List.length_nil] at this
        omega
      · have hnp : ¬ (x = 96 ∧ y = 96 ∧ z = 96) := by
          intro h
          apply hno
          have h3 : (x :: d').take 3 = [x, y, z] := by
            have : (d'.take (k + 3)).take 2 = [y, z] := by rw [hd]; rfl
            rw [List.take_take] at this
            have hm : min 2 (k + 3) = 2 := by omega
            rw [hm] at this
            rw [show (3 : Nat) = 2 + 1 by rfl, List.take_succ_cons, this]
          have hpre : fence <+: (x :: d').take 3 := by
            rw [h3]; obtain ⟨rfl, rfl, rfl⟩ := h; exact List.prefix_refl _
          exact (hpre.trans (List.take_prefix_take_left _ (by omega))).isInfix
        rw [show k + 1 + 3 = (k + 3) + 1 by ring, List.take_succ_cons, hd, greedyFences,
          if_neg hnp, ← hd, hih]
        congr 1
        omega

theorem seam_fence_two (content : Bytes) (m : Nat) (hml : m ≤ content.length) (b : Bytes)
    (hb : b <+: content.drop m) (h : [96, 96] <:+ content.take m ∧ [96] <+: b) :
    2 ≤ m ∧ fenceAt content (m - 2) = true := by
  obtain ⟨⟨pre, hpre⟩, hb1⟩ := h
  obtain ⟨rest, hrest⟩ := hb1.trans hb
  have hlen : pre.length + 2 = m := by
    have := congrArg List.length hpre
    rw [List.length_append, List.length_take, Nat.min_eq_left hml] at this
    simpa using this
  refine ⟨by omega, ?_⟩
  rw [fenceAt_iff]
  have hc : content = pre ++ ([96, 96, 96] ++ rest) := by
    conv_lhs => rw [← List.take_append_drop m content, ← hpre, ← hrest]
    simp
  have hm : m - 2 = pre.length := by omega
  rw [hm, hc, List.drop_left]
  exact ⟨rest, rfl⟩

theorem seam_fence_one (content : Bytes) (m : Nat) (hml : m ≤ content.length) (b : Bytes)
    (hb : b <+: content.drop m) (h : [96] <:+ content.take m ∧ [96, 96] <+: b) :
    fenceAt content (m - 1) = true := by
  obtain ⟨⟨pre, hpre⟩, hb1⟩ := h
  obtain ⟨rest, hrest⟩ := hb1.trans hb
  have hlen : pre.length + 1 = m := by
    have := congrArg List.length hpre
    rw [List.length_append, List.length_take, Nat.min_eq_left hml] at this
    simpa using this
  rw [fenceAt_iff]
  have hc : content = pre ++ ([96, 96, 96] ++ rest) := by
    conv_lhs => rw [← List.take_append_drop m content, ← hpre, ← hrest]
    simp
  have hm : m - 1 = pre.length := by omega
  rw [hm, hc, List.drop_left]
  exact ⟨rest, rfl⟩

theorem greedy_odd_of_unclosed (t : Bytes) (u : Nat)
    (h : FindLastUnclosedCodeBlock t = (u : Int)) : (greedyFences t 0).length % 2 = 1 := by
  by_contra hne
  rw [FindLastUnclosedCodeBlock_greedy, if_neg hne] at h
  omega

/-- The extension closes the block unless a fence lies across the candidate
offset. -/
theorem extension_closes (content : Bytes) (m u : Nat) (c : Int)
    (hml : m ≤ content.length)
    (hu : FindLastUnclosedCodeBlock (content.take m) = (u : Int))
    (hc : FindNextClosingCodeBlock content (m : Int) = some c) (hpos : 0 < c)
    (hno : ¬ (fenceAt content (m - 1) = true ∨ (2 ≤ m ∧ fenceAt content (m - 2) = true))) :
    FindLastUnclosedCodeBlock (content.take c.toNat) = -1 := by
  rw [FindNextClosingCodeBlock_nat] at hc
  have hc' : closingScan (content.drop m) m = c := by simpa using hc
  obtain ⟨hnone, hsome⟩ := closingScan_spec (content.drop m).length (content.drop m) le_rfl m
  have hf : fence <:+: content.drop m := by
    by_contra hf
    rw [hnone hf] at hc'
    omega
  obtain ⟨k, hk1, hk2, hk3⟩ := hsome hf
  have hcn : c.toNat = m + (k + 3) := by
    rw [← hc', hk1]
    simp
    omega
  have hsplit : content.take (m + (k + 3)) = content.take m ++ (content.drop m).take (k + 3) :=
    List.take_add _ _ _
  have hb : (content.drop m).take (k + 3) <+: content.drop m := List.take_prefix _ _
  have hcond : NoStraddle (content.take m) ((content.drop m).take (k + 3)) :=
    ⟨fun h => hno (Or.inr (seam_fence_two content m hml _ hb h)),
      fun h => hno (Or.inl (seam_fence_one content m hml _ hb h))⟩
  have happ := greedyFences_append (content.take m).length (content.take m)
    ((content.drop m).take (k + 3)) le_rfl hcond 0
  have hcl := greedyFences_closing k (content.drop m) (0 + (content.take m).length) hk2 hk3
  have hodd := greedy_odd_of_unclosed _ _ hu
  rw [FindLastUnclosedCodeBlock_greedy, hcn, hsplit, happ, hcl, if_neg]
  rw [List.length_append, List.length_singleton]
  omega

theorem greedy_of_unclosed_zero (t : Bytes) (h : FindLastUnclosedCodeBlock t = 0) :
    greedyFences t 0 = [0] ∨ 3 ≤ (greedyFences t 0).length := by
  have hodd := greedy_odd_of_unclosed t 0 (by simpa using h)
  rw [FindLastUnclosedCodeBlock_greedy, if_pos hodd] at h
  rcases hg : greedyFences t 0 with _ | ⟨p, _ | ⟨q, rest⟩⟩
  · rw [hg] at hodd; simp at hodd
  · left
    rw [hg] at h
    simp at h
    rw [h]
  · right
    rw [hg] at hodd
    simp at hodd ⊢
    omega

theorem unclosed_zero_of_greedy (t : Bytes) (h : greedyFences t 0 = [0]) :
    FindLastUnclosedCodeBlock t = 0 := by
  rw [FindLastUnclosedCodeBlock_greedy, h]
  simp

/-- What the fence guard leaves of the claim that no chunk ends in an open block:
the hard cut of a block that begins the text, and the two slips. -/
theorem splitPoint_guard_fine (content : Bytes) (limit : Int) (h0 : 0 < limit)
    (hlen : limit < content.length) (e : Nat) (hs : splitPoint content limit = some (e : Int)) :
    FindLastUnclosedCodeBlock (content.take e) = -1 ∨ ¬ fence <:+: content.drop e ∨
    (guardRetreats content limit = true ∧
      greedyFences (content.take (candidateEnd content limit).toNat) 0 = [0] ∧
      (e : Int) = limit) ∨
    (guardExtends content limit = true ∧
      (fenceAt content ((candidateEnd content limit).toNat - 1) = true ∨
        (2 ≤ (candidateEnd content limit).toNat ∧
          fenceAt content ((candidateEnd content limit).toNat - 2) = true))) ∨
    (guardRetreats content limit = true ∧
      FindLastUnclosedCodeBlock (content.take (candidateEnd content limit).toNat) = 0 ∧
      3 ≤ (greedyFences (content.take (candidateEnd content limit).toNat) 0).length) := by
  obtain ⟨m, hm1, hm2, hm3, hcase⟩ := splitPoint_cases content limit h0 hlen
  have hce := candidateEnd_eq content limit m hm1
  have hml : m ≤ content.length := by omega
  rw [hce]
  simp only [Int.toNat_ofNat]
  rcases hcase with ⟨hu, hs'⟩ | ⟨u, hu, hcase⟩
  · left
    have : e = m := splitPoint_inj hs hs'
    rw [this]
    exact hu
  · rcases hcase with ⟨-, hs'⟩ | ⟨hext, c, hc, hcase⟩
    · right; left
      have : e = content.length := splitPoint_inj hs hs'
      rw [this, List.drop_length]
      exact not_fence_infix_short [] (by simp)
    · have hsearch : guardSearches content limit = true := by
        simp [guardSearches, hce, hu, hext]
      rcases hcase with ⟨hc1, hc2, hs'⟩ | ⟨hcn, hs'⟩
      · by_cases hno : fenceAt content (m - 1) = true ∨ (2 ≤ m ∧ fenceAt content (m - 2) = true)
        · right; right; right; left
          refine ⟨?_, hno⟩
          simp [guardExtends, hsearch, closingWithin, hce, hc, hc1, hc2]
        · left
          have hec : e = c.toNat := by
            rw [hs] at hs'
            have : (e : Int) = c := by simpa using hs'
            omega
          rw [hec]
          exact extension_closes content m u c hml hu hc hc1 hno
      · have hretreat : guardRetreats content limit = true := by
          simp only [guardRetreats, hsearch, closingWithin, hce, hc, Bool.true_and,
            Bool.not_eq_true', decide_eq_false_iff_not]
          exact hcn
        rcases FindLastUnclosedCodeBlock_cases (content.take m) with hu' | ⟨u', hu', hpre, hfirst⟩
        · rw [hu'] at hu; omega
        · have huu : u' = u := by rw [hu] at hu'; exact_mod_cast hu'.symm
          subst huu
          have hule := FindLastUnclosedCodeBlock_le _ _ hu
          simp at hule
          rw [hs] at hs'
          rcases boundaryOr_cases (content.take u') (u' : Int) with hb | hb
          · rw [hb] at hs'
            by_cases hu0 : (u' : Int) ≤ 0
            · rw [if_pos hu0] at hs'
              have hz : u' = 0 := by omega
              subst hz
              have hu00 : FindLastUnclosedCodeBlock (content.take m) = 0 := by simpa using hu
              rcases greedy_of_unclosed_zero _ hu00 with hg | hg
              · right; right; left
                exact ⟨hretreat, hg, by simpa using hs'⟩
              · right; right; right; right
                exact ⟨hretreat, hu00, hg⟩
            · left
              rw [if_neg hu0] at hs'
              have heu : e = u' := by simpa using hs'
              subst heu
              apply FindLastUnclosedCodeBlock_none
              intro hbad
              apply hfirst
              rw [List.take_take]
              have : min (e + 2) m = e + 2 := by omega
              rw [this]
              exact hbad.trans (List.take_prefix_take_left content (by omega)).isInfix
          · left
            have hb2 := hb.2
            simp at hb2
            rw [if_neg (by omega)] at hs'
            have heb : (e : Int) = boundaryOr (content.take u') (u' : Int) := by simpa using hs'
            apply FindLastUnclosedCodeBlock_none
            intro hbad
            apply hfirst
            rw [List.take_take]
            have : min (u' + 2) m = u' + 2 := by omega
            rw [this]
            exact hbad.trans (List.take_prefix_take_left content (by omega)).isInfix

theorem fenceStraddles_iff (content : Bytes) (limit : Int) :
    fenceStraddles content limit = true ↔
      (fenceAt content ((candidateEnd content limit).toNat - 1) = true ∨
        (2 ≤ (candidateEnd content limit).toNat ∧
          fenceAt content ((candidateEnd content limit).toNat - 2) = true)) := by
  unfold fenceStraddles
  rw [Bool.or_eq_true, Bool.and_eq_true, decide_eq_true_iff]

theorem splitPoint_guard_vocab (content : Bytes) (limit : Int) (h0 : 0 < limit)
    (hlen : limit < content.length) (e : Nat) (hs : splitPoint content limit = some (e : Int)) :
    FindLastUnclosedCodeBlock (content.take e) = -1 ∨ ¬ fence <:+: content.drop e ∨
    (openBlockAtStart content limit = true ∧ fenceStraddles content limit = false ∧
      (e : Int) = limit) ∨
    straddleSlip content limit = true ∨ firstFenceSlip content limit = true := by
  rcases splitPoint_guard_fine content limit h0 hlen e hs with h | h | ⟨h1, h2, h3⟩ |
    ⟨h1, h2⟩ | ⟨h1, h2, h3⟩
  · exact Or.inl h
  · exact Or.inr (Or.inl h)
  · have hopen : openBlockAtStart content limit = true := by
      simp [openBlockAtStart, candidatePrefix, h1, h2]
    cases hst : fenceStraddles content limit with
    | false =>
      right; right; left
      exact ⟨hopen, rfl, h3⟩
    | true =>
      right; right; right; left
      simp [straddleSlip, hopen, hst]
  · right; right; right; left
    have hst : fenceStraddles content limit = true := (fenceStraddles_iff content limit).2 h2
    simp [straddleSlip, h1, hst]
  · right; right; right; right
    simp [firstFenceSlip, candidatePrefix, h1, h2, h3]

/-! # The claims -/

/-- C1, as stated, fails on the empty content: with `len(content) = 0 <= limit`
the loop body never runs and the result is the empty sequence, not `[content]`. -/
theorem C1_counterexample :
    ((([] : Bytes).length : Int) ≤ 0) ∧ SplitMessage [] 0 = .ok [] ∧ SplitMessage [] 0 ≠ .ok [[]] := by
  decide

/-- C1 (amended): for every non-empty content and every limit with
`len(content) <= limit`, `SplitMessage(content, limit)` is the single-element
sequence `[content]`. -/
theorem C1_fits_single_chunk (content : Bytes) (limit : Int) (hne : content ≠ [])
    (hfit : (content.length : Int) ≤ limit) : SplitMessage content limit = .ok [content] := by
  unfold SplitMessage
  obtain ⟨n, hn⟩ : ∃ n, content.length = n + 1 :=
    ⟨content.length - 1, by have := List.length_pos.2 hne; omega⟩
  rw [hn]
  exact splitLoop_fit n content limit hne hfit

/-- Scenario A: fifty bytes `a` under limit 100 come back as one chunk. -/
theorem C1_fits_single_chunk_witness :
    List.replicate 50 97 ≠ [] ∧ (((List.replicate 50 97).length : Int) ≤ 100) ∧
      SplitMessage (List.replicate 50 97) 100 = .ok [List.replicate 50 97] :=
  ⟨by decide, by decide, C1_fits_single_chunk (List.replicate 50 97) 100 (by decide) (by decide)⟩

/-- C2: for every limit > 0 and every content, every chunk returned by
`SplitMessage(content, limit)` except the last has byte length at most
`limit + 500`. -/
theorem C2_chunk_length_le_extended (content : Bytes) (limit : Int) (h0 : 0 < limit) :
    ∃ ms, SplitMessage content limit = .ok ms ∧
      ∀ c ∈ ms.dropLast, (c.length : Int) ≤ limit + 500 := by
  obtain ⟨ms, h1, h2⟩ := chunks_le_extended content limit h0
  exact ⟨ms, h1, fun c hc => h2 c (List.mem_of_mem_dropLast hc)⟩

/-- A content of 12 bytes with a space in it, limit 5: two chunks, the first within 505. -/
theorem C2_chunk_length_le_extended_witness :
    (0 : Int) < 5 ∧ ∃ ms, SplitMessage [97, 98, 99, 32, 100, 101, 102, 103, 104, 105, 106, 107] 5 = .ok ms ∧
      ∀ c ∈ ms.dropLast, (c.length : Int) ≤ 5 + 500 :=
  ⟨by decide,
    C2_chunk_length_le_extended [97, 98, 99, 32, 100, 101, 102, 103, 104, 105, 106, 107] 5
      (by decide)⟩

/-- C3, as stated, fails on a content that is not valid UTF-8: the bytes
`E3 80 20 80` under limit 3 are split at the blank into `E3 80` and `80`; the
chunks concatenate to `E3 80 80`, the white-space rune U+3000, so deleting all
white space from them leaves nothing, while it leaves `E3 80 80` of the content. -/
theorem C3_counterexample :
    SplitMessage [0xE3, 0x80, 0x20, 0x80] 3 = .ok [[0xE3, 0x80], [0x80]] ∧
    deleteSpace ([[0xE3, 0x80], [0x80]] : List Bytes).flatten = [] ∧
    deleteSpace [0xE3, 0x80, 0x20, 0x80] = [0xE3, 0x80, 0x80] := by
  decide

/-- C3 (amended): for every limit > 0 and every content, with `c1..cn` the
chunks of `SplitMessage(content, limit)`, `content = c1 ++ w1 ++ ... ++ cn ++ wn`
for strings `w1..wn` that consist only of white space (`TrimSpace` removes each
of them whole), so the chunks are consecutive, in-order substrings of content;
and when content is valid UTF-8, or more generally when no white-space character
of content is directly followed by a UTF-8 continuation byte, deleting all white
space from the concatenation of the chunks gives the same string as deleting all
white space from content. -/
theorem C3_reconstruction (content : Bytes) (limit : Int) (h0 : 0 < limit) :
    ∃ (ms ws : List Bytes), SplitMessage content limit = .ok ms ∧
      ws.length = ms.length ∧ (∀ w ∈ ws, allSpace w = true) ∧ content = weave ms ws ∧
      (spaceThenCont content = false → deleteSpace ms.flatten = deleteSpace content) ∧
      (ValidString content = true → deleteSpace ms.flatten = deleteSpace content) := by
  obtain ⟨ms, h1, ws, hw1, hw2, hw3⟩ := chunks_weave content limit h0
  obtain ⟨ms', h1', hd⟩ := chunks_deleteSpace content limit h0
  have : ms' = ms := by
    rw [h1] at h1'
    exact (Outcome.ok.inj h1').symm
  subst this
  exact ⟨ms', ws, h1, hw1, fun w hw => (hw2 w hw).allSpace, hw3, hd,
    fun hv => hd (ValidString_spaceThenCont content hv)⟩

/-- Two blanks at the split point and a trailing newline, limit 3. -/
theorem C3_reconstruction_witness :
    (0 : Int) < 3 ∧ ValidString [97, 98, 32, 32, 99, 100, 10] = true ∧
    ∃ (ms ws : List Bytes), SplitMessage [97, 98, 32, 32, 99, 100, 10] 3 = .ok ms ∧
      ws.length = ms.length ∧ (∀ w ∈ ws, allSpace w = true) ∧
      [97, 98, 32, 32, 99, 100, 10] = weave ms ws ∧
      (spaceThenCont [97, 98, 32, 32, 99, 100, 10] = false →
        deleteSpace ms.flatten = deleteSpace [97, 98, 32, 32, 99, 100, 10]) ∧
      (ValidString [97, 98, 32, 32, 99, 100, 10] = true →
        deleteSpace ms.flatten = deleteSpace [97, 98, 32, 32, 99, 100, 10]) :=
  ⟨by decide, by decide, C3_reconstruction [97, 98, 32, 32, 99, 100, 10] 3 (by decide)⟩

/-- C4: for every limit > 0 and every content the run ends: any fuel of at
least `len(content)` iterations returns the same chunk sequence, which has at
most `len(content)` chunks, each of length at least 1; and every iteration that
does not stop cuts at an offset `e >= 1` and leaves a strictly shorter content. -/
theorem C4_terminates (content : Bytes) (limit : Int) (h0 : 0 < limit) :
    (∃ ms, SplitMessage content limit = .ok ms ∧
      (∀ fuel, content.length ≤ fuel → splitLoop fuel content limit = .ok ms) ∧
      ms.length ≤ content.length ∧ ∀ c ∈ ms, 1 ≤ c.length) ∧
    (∀ cur : Bytes, limit < (cur.length : Int) →
      ∃ e : Nat, splitPoint cur limit = some (e : Int) ∧ 1 ≤ e ∧ e ≤ cur.length ∧
        (TrimSpace (cur.drop e)).length < cur.length) := by
  constructor
  · obtain ⟨ms, h1, h2, h3⟩ := chunks_nonempty content limit h0
    refine ⟨ms, h1, ?_, h3, h2⟩
    intro fuel hf
    rw [← h1]
    unfold SplitMessage
    refine splitLoop_fuel_le limit content _ fuel hf ?_
    unfold SplitMessage at h1
    rw [h1]
    simp
  · intro cur hlen
    obtain ⟨e, hs, he0, he1, -⟩ := splitPoint_spec cur limit h0 hlen
    refine ⟨e, hs, he0, he1, ?_⟩
    have := TrimSpace_length_le (cur.drop e)
    simp at this
    omega

/-- Scenario D: an odd number of fences (one), content longer than the limit. -/
theorem C4_terminates_witness :
    (0 : Int) < 4 ∧
    ((∃ ms, SplitMessage [96, 96, 96, 97, 98, 99, 100] 4 = .ok ms ∧
      (∀ fuel, ([96, 96, 96, 97, 98, 99, 100] : Bytes).length ≤ fuel →
        splitLoop fuel [96, 96, 96, 97, 98, 99, 100] 4 = .ok ms) ∧
      ms.length ≤ ([96, 96, 96, 97, 98, 99, 100] : Bytes).length ∧ ∀ c ∈ ms, 1 ≤ c.length) ∧
    (∀ cur : Bytes, (4 : Int) < (cur.length : Int) →
      ∃ e : Nat, splitPoint cur 4 = some (e : Int) ∧ 1 ≤ e ∧ e ≤ cur.length ∧
        (TrimSpace (cur.drop e)).length < cur.length)) :=
  ⟨by decide, C4_terminates [96, 96, 96, 97, 98, 99, 100] 4 (by decide)⟩

set_option maxRecDepth 100000 in
/-- C5, as stated, fails when the content being split begins with a fence whose
closing fence ends beyond `limit + 500`: for three backticks, 498 bytes `a` and
three backticks under limit 3 the first chunk is the hard cut at 3, the opening
fence alone, which is unclosed, and the text behind it holds the closing fence. -/
theorem C5_counterexample :
    (SplitTrace (fence ++ List.replicate 498 97 ++ fence) 3).head?
      = some (fence, List.replicate 498 97 ++ fence) ∧
    FindLastUnclosedCodeBlock fence = 0 ∧
    fence <:+: List.replicate 498 97 ++ fence :=
  ⟨by decide, by decide, ⟨List.replicate 498 97, [], by simp⟩⟩

/-- C5 (amended): for every limit > 0 and every content, every chunk that
`SplitMessage` emits satisfies `FindLastUnclosedCodeBlock(chunk) = -1`, or is
followed by a text without a fence, or was cut by the retreat of lines 44-50
from a text whose candidate prefix counts exactly one fence, at offset 0, with
no fence across the candidate offset: the open block begins the text, no split
point lies before it, the search finds no closing fence that ends within
`limit + 500`, and the chunk is the hard cut at `limit` (line 59).  Nothing is
said of two kinds of chunks: one cut by the extension of line 41, or by the
retreat from a block that begins the text, while a fence lies across the
candidate offset; and one cut by the retreat from offset 0 while the candidate
prefix counts three or more fences. -/
theorem C5_fence_guard (content : Bytes) (limit : Int) (h0 : 0 < limit) :
    SplitMessage content limit = .ok ((SplitTrace content limit).map Prod.fst) ∧
    ∀ p ∈ SplitTrace content limit,
      FindLastUnclosedCodeBlock p.1 = -1 ∨ ¬ fence <:+: p.2 ∨
      (openBlockAtStart (p.1 ++ p.2) limit = true ∧
        fenceStraddles (p.1 ++ p.2) limit = false ∧ (p.1.length : Int) = limit) ∨
      straddleSlip (p.1 ++ p.2) limit = true ∨ firstFenceSlip (p.1 ++ p.2) limit = true := by
  refine trace_spec limit h0 _ ?_ ?_ content.length content le_rfl
  · intro c _ _
    right; left
    exact not_fence_infix_short [] (by simp)
  · intro c e hlen hs _ he1
    have hlen' : (c.take e).length = e := by
      rw [List.length_take]; omega
    simp only [List.take_append_drop, hlen']
    exact splitPoint_guard_vocab c limit h0 hlen e hs

/-- A closed block in the text, limit 8: the natural split points fall outside it. -/
theorem C5_fence_guard_witness :
    (0 : Int) < 8 ∧
    (SplitMessage [97, 32, 96, 96, 96, 98, 96, 96, 96, 32, 99, 100] 8
        = .ok ((SplitTrace [97, 32, 96, 96, 96, 98, 96, 96, 96, 32, 99, 100] 8).map Prod.fst) ∧
    ∀ p ∈ SplitTrace [97, 32, 96, 96, 96, 98, 96, 96, 96, 32, 99, 100] 8,
      FindLastUnclosedCodeBlock p.1 = -1 ∨ ¬ fence <:+: p.2 ∨
      (openBlockAtStart (p.1 ++ p.2) 8 = true ∧
        fenceStraddles (p.1 ++ p.2) 8 = false ∧ (p.1.length : Int) = 8) ∨
      straddleSlip (p.1 ++ p.2) 8 = true ∨ firstFenceSlip (p.1 ++ p.2) 8 = true) :=
  ⟨by decide, C5_fence_guard [97, 32, 96, 96, 96, 98, 96, 96, 96, 32, 99, 100] 8 (by decide)⟩

/-- C6: for every limit > 0 and every content, no chunk returned by
`SplitMessage(content, limit)` is the empty string. -/
theorem C6_no_empty_chunk (content : Bytes) (limit : Int) (h0 : 0 < limit) :
    ∃ ms, SplitMessage content limit = .ok ms ∧ ∀ c ∈ ms, c ≠ [] := by
  obtain ⟨ms, h1, h2, -⟩ := chunks_nonempty content limit h0
  refine ⟨ms, h1, ?_⟩
  intro c hc hnil
  have := h2 c hc
  rw [hnil] at this
  simp at this

/-- A content with blanks around the split point, limit 3. -/
theorem C6_no_empty_chunk_witness :
    (0 : Int) < 3 ∧ ∃ ms, SplitMessage [97, 32, 32, 32, 98, 99] 3 = .ok ms ∧ ∀ c ∈ ms, c ≠ [] :=
  ⟨by decide, C6_no_empty_chunk [97, 32, 32, 32, 98, 99] 3 (by decide)⟩

/-- C7, as stated, fails on a content that is white space only: a single blank
under limit 1 is returned as the chunk it is, and trimming that chunk leaves
nothing. -/
theorem C7_counterexample :
    SplitMessage [32] 1 = .ok [[32]] ∧ TrimSpace [32] = [] := by
  decide

/-- C7 (amended): for every limit > 0 and every content, every chunk of
`SplitMessage(content, limit)` after the first is non-empty after trimming its
leading and trailing white space, and so is the first chunk when content does
not begin with a white-space character. -/
theorem C7_chunks_not_blank (content : Bytes) (limit : Int) (h0 : 0 < limit) :
    ∃ ms, SplitMessage content limit = .ok ms ∧
      (∀ c ∈ ms.tail, TrimSpace c ≠ []) ∧
      (leadingSpace content = none → ∀ c ∈ ms, TrimSpace c ≠ []) := by
  obtain ⟨ms, h1, h2, h3⟩ := chunks_trimmed content limit h0
  exact ⟨ms, h1, h3, h2⟩

/-- A content that starts with a letter and has blanks at the split point, limit 3. -/
theorem C7_chunks_not_blank_witness :
    (0 : Int) < 3 ∧ ∃ ms, SplitMessage [97, 98, 32, 32, 99, 100] 3 = .ok ms ∧
      (∀ c ∈ ms.tail, TrimSpace c ≠ []) ∧
      (leadingSpace [97, 98, 32, 32, 99, 100] = none → ∀ c ∈ ms, TrimSpace c ≠ []) :=
  ⟨by decide, C7_chunks_not_blank [97, 98, 32, 32, 99, 100] 3 (by decide)⟩

/-- C8: for every limit > 0 and every content without a fence, the fence guard
never changes a split point: each iteration cuts at the candidate offset, and
`SplitMessage(content, limit)` returns what the plain newline/space splitter
returns. -/
theorem C8_plain_without_fence (content : Bytes) (limit : Int) (h0 : 0 < limit)
    (hno : ¬ fence <:+: content) :
    SplitMessage content limit = PlainSplit content limit ∧
    (∃ ms, PlainSplit content limit = .ok ms) ∧
    (∀ cur : Bytes, limit < (cur.length : Int) → ¬ fence <:+: cur →
      splitPoint cur limit = some (candidateEnd cur limit)) := by
  have heq : SplitMessage content limit = PlainSplit content limit :=
    (plainLoop_eq_splitLoop limit h0 content.length content hno).symm
  refine ⟨heq, ?_, ?_⟩
  · obtain ⟨ms, hms, -⟩ := chunks_nonempty content limit h0
    exact ⟨ms, by rw [← heq]; exact hms⟩
  · intro cur hlen hcur
    exact (splitPoint_no_fence cur limit h0 hlen hcur).1

/-- Two words and a newline, no backtick, limit 4. -/
theorem C8_plain_without_fence_witness :
    (0 : Int) < 4 ∧ ¬ fence <:+: [97, 98, 10, 99, 100, 32, 101, 102] ∧
    (SplitMessage [97, 98, 10, 99, 100, 32, 101, 102] 4
        = PlainSplit [97, 98, 10, 99, 100, 32, 101, 102] 4 ∧
    (∃ ms, PlainSplit [97, 98, 10, 99, 100, 32, 101, 102] 4 = .ok ms) ∧
    (∀ cur : Bytes, (4 : Int) < (cur.length : Int) → ¬ fence <:+: cur →
      splitPoint cur 4 = some (candidateEnd cur 4))) :=
  ⟨by decide, by decide,
    C8_plain_without_fence [97, 98, 10, 99, 100, 32, 101, 102] 4 (by decide) (by decide)⟩

/-- C9: for every limit > 0 and every content, every chunk of
`SplitMessage(content, limit)` whose byte length exceeds limit contains a fence;
hence for a content without a fence every chunk has length at most limit. -/
theorem C9_long_chunk_has_fence (content : Bytes) (limit : Int) (h0 : 0 < limit) :
    ∃ ms, SplitMessage content limit = .ok ms ∧
      (∀ c ∈ ms, limit < (c.length : Int) → fence <:+: c) ∧
      (¬ fence <:+: content → ∀ c ∈ ms, (c.length : Int) ≤ limit) := by
  obtain ⟨ms, h1, h2⟩ := chunks_long_have_fence content limit h0
  obtain ⟨ms', h1', h3⟩ := chunks_within content limit h0
  have : ms' = ms := by
    rw [h1] at h1'
    exact (Outcome.ok.inj h1').symm
  subst this
  refine ⟨ms', h1, h2, ?_⟩
  intro hno c hc
  by_contra hlong
  exact hno ((h2 c hc (by omega)).trans (h3 c hc))

/-- An open fence under limit 4: the one chunk is the whole content, seven bytes. -/
theorem C9_long_chunk_has_fence_witness :
    (0 : Int) < 4 ∧ ∃ ms, SplitMessage [96, 96, 96, 97, 98, 99, 100] 4 = .ok ms ∧
      (∀ c ∈ ms, (4 : Int) < (c.length : Int) → fence <:+: c) ∧
      (¬ fence <:+: [96, 96, 96, 97, 98, 99, 100] → ∀ c ∈ ms, (c.length : Int) ≤ 4) :=
  ⟨by decide, C9_long_chunk_has_fence [96, 96, 96, 97, 98, 99, 100] 4 (by decide)⟩

/-- C10: for every limit, of any sign, `SplitMessage("", limit)` returns the
empty sequence, whatever the number of iterations allowed; an empty content
never yields a chunk. -/
theorem C10_empty_content (limit : Int) :
    SplitMessage [] limit = .ok [] ∧ ∀ fuel, splitLoop fuel [] limit = .ok [] :=
  ⟨splitLoop_nil _ _, fun fuel => splitLoop_nil fuel limit⟩

/-! ## The fence detector -/

/-- C11, on the text "```a```b```": the scan counts the fences at offsets 0, 4
and 8, an odd number, and the last counted one, at offset 8, opens the block
that is not closed; the code returns 0, the offset of the first fence, which
the second fence closes. -/
theorem C11_returns_first_fence :
    greedyFences [96, 96, 96, 97, 96, 96, 96, 98, 96, 96, 96] 0 = [0, 4, 8] ∧
    FindLastUnclosedCodeBlock [96, 96, 96, 97, 96, 96, 96, 98, 96, 96, 96] = 0 := by
  decide

/-- C12: for every text, `FindLastUnclosedCodeBlock(text) = -1` if and only if
the greedy left-to-right scan counts an even number of fences (zero included);
when the count is odd the result is an offset `i` with `0 <= i`,
`i + 3 <= len(text)` and `text[i..i+3)` a fence. -/
theorem C12_unclosed_iff_odd (text : Bytes) :
    (FindLastUnclosedCodeBlock text = -1 ↔ (greedyFences text 0).length % 2 = 0) ∧
    ((greedyFences text 0).length % 2 = 1 →
      ∃ i : Nat, FindLastUnclosedCodeBlock text = (i : Int) ∧ i + 3 ≤ text.length ∧
        fenceAt text i = true) := by
  have hg := FindLastUnclosedCodeBlock_greedy text
  have hodd : (greedyFences text 0).length % 2 = 1 →
      ∃ i : Nat, FindLastUnclosedCodeBlock text = (i : Int) ∧ i + 3 ≤ text.length ∧
        fenceAt text i = true := by
    intro h
    rw [if_pos h] at hg
    rcases hgf : greedyFences text 0 with _ | ⟨p, ps⟩
    · rw [hgf] at h; simp at h
    · rw [hgf] at hg
      simp at hg
      rcases FindLastUnclosedCodeBlock_cases text with hc | ⟨k, hk, hpre, -⟩
      · rw [hc] at hg; omega
      · refine ⟨k, hk, ?_, (fenceAt_iff text k).2 hpre⟩
        have := hpre.length_le
        simp [fence] at this
        omega
  refine ⟨⟨?_, ?_⟩, hodd⟩
  · intro h
    by_contra hne
    obtain ⟨i, hi, -, -⟩ := hodd (by omega)
    rw [hi] at h
    omega
  · intro h
    rw [hg, if_neg (by omega)]

/-! ## Lemmas on the closing-fence search -/

theorem fenceAt_drop (text : Bytes) (s k : Nat) :
    fenceAt (text.drop s) k = fenceAt text (s + k) := by
  unfold fenceAt
  rw [List.drop_drop]

theorem not_fenceAt_of_take (t : Bytes) (k j : Nat) (h : ¬ fence <:+: t.take (k + 2)) (hj : j < k) :
    fenceAt t j = false := by
  by_contra hne
  have hj' : fenceAt t j = true := by simpa using hne
  obtain ⟨-, hin⟩ := fenceAt_within t j hj'
  exact h (hin.trans (List.take_prefix_take_left t (by omega)).isInfix)

theorem infix_of_fenceAt (t : Bytes) (j : Nat) (h : fenceAt t j = true) : fence <:+: t :=
  (fenceAt_within t j h).2.trans (List.take_prefix _ _).isInfix

/-- C13: for every text and every `startIdx >= 0`,
`FindNextClosingCodeBlock(text, startIdx)` returns `j + 3` for the least offset
`j >= startIdx` at which `text[j..j+3)` is a fence, and returns -1 exactly when
there is no such offset; a non-negative result `r` has
`startIdx + 3 <= r <= len(text)`. -/
theorem C13_next_closing (text : Bytes) (startIdx : Int) (h0 : 0 ≤ startIdx) :
    ∃ r : Int, FindNextClosingCodeBlock text startIdx = some r ∧
      ((r = -1 ∧ ∀ j : Nat, startIdx ≤ (j : Int) → fenceAt text j = false) ∨
       (∃ j : Nat, r = (j : Int) + 3 ∧ startIdx ≤ (j : Int) ∧ fenceAt text j = true ∧
          ∀ k : Nat, startIdx ≤ (k : Int) → k < j → fenceAt text k = false)) ∧
      (r = -1 ↔ ∀ j : Nat, startIdx ≤ (j : Int) → fenceAt text j = false) ∧
      (0 ≤ r → startIdx + 3 ≤ r ∧ r ≤ (text.length : Int)) := by
  obtain ⟨s, rfl⟩ : ∃ s : Nat, startIdx = (s : Int) := ⟨startIdx.toNat, by omega⟩
  refine ⟨closingScan (text.drop s) s, FindNextClosingCodeBlock_nat text s, ?_⟩
  obtain ⟨hnone, hsome⟩ := closingScan_spec (text.drop s).length (text.drop s) le_rfl s
  by_cases hf : fence <:+: text.drop s
  · obtain ⟨k, hk1, hk2, hk3⟩ := hsome hf
    have hat : fenceAt text (s + k) = true := by
      rw [← fenceAt_drop]; exact (fenceAt_iff _ _).2 hk2
    have hlen := (fenceAt_within text (s + k) hat).1
    have hleast : ∀ j : Nat, (s : Int) ≤ (j : Int) → j < s + k → fenceAt text j = false := by
      intro j hj1 hj2
      obtain ⟨d, rfl⟩ : ∃ d, j = s + d := ⟨j - s, by omega⟩
      rw [← fenceAt_drop]
      exact not_fenceAt_of_take _ k d hk3 (by omega)
    have hr : closingScan (text.drop s) s = ((s + k : Nat) : Int) + 3 := by
      rw [hk1]; push_cast; ring
    refine ⟨Or.inr ⟨s + k, hr, by omega, hat, hleast⟩, ?_, ?_⟩
    · constructor
      · intro h; rw [hr] at h; omega
      · intro h
        have := h (s + k) (by omega)
        rw [hat] at this
        cases this
    · intro _
      rw [hr]
      constructor <;> omega
  · have hr := hnone hf
    have hall : ∀ j : Nat, (s : Int) ≤ (j : Int) → fenceAt text j = false := by
      intro j hj
      obtain ⟨d, rfl⟩ : ∃ d, j = s + d := ⟨j - s, by omega⟩
      rw [← fenceAt_drop]
      by_contra hne
      exact hf (infix_of_fenceAt _ d (by simpa using hne))
    refine ⟨Or.inl ⟨hr, hall⟩, ⟨fun _ => hall, fun _ => hr⟩, ?_⟩
    intro h
    rw [hr] at h
    omega

/-- A fence at offset 5, searched from offset 2 of an eight-byte text. -/
theorem C13_next_closing_witness :
    (0 : Int) ≤ 2 ∧
    ∃ r : Int, FindNextClosingCodeBlock [97, 96, 96, 98, 99, 96, 96, 96] 2 = some r ∧
      ((r = -1 ∧ ∀ j : Nat, (2 : Int) ≤ (j : Int) →
          fenceAt [97, 96, 96, 98, 99, 96, 96, 96] j = false) ∨
       (∃ j : Nat, r = (j : Int) + 3 ∧ (2 : Int) ≤ (j : Int) ∧
          fenceAt [97, 96, 96, 98, 99, 96, 96, 96] j = true ∧
          ∀ k : Nat, (2 : Int) ≤ (k : Int) → k < j →
            fenceAt [97, 96, 96, 98, 99, 96, 96, 96] k = false)) ∧
      (r = -1 ↔ ∀ j : Nat, (2 : Int) ≤ (j : Int) →
          fenceAt [97, 96, 96, 98, 99, 96, 96, 96] j = false) ∧
      (0 ≤ r → (2 : Int) + 3 ≤ r ∧
        r ≤ (([97, 96, 96, 98, 99, 96, 96, 96] : Bytes).length : Int)) :=
  ⟨by decide, C13_next_closing [97, 96, 96, 98, 99, 96, 96, 96] 2 (by decide)⟩

/-! ## Lemmas on the boundary scanners -/

theorem lastNewlineLoop_char (s : Bytes) (ss : Int) (n : Nat) :
    (lastNewlineLoop s ss n = -1 ∧
      ∀ k : Nat, ss ≤ (k : Int) → k < n → isNewline (s.getD k 0) = false) ∨
    (∃ i : Nat, lastNewlineLoop s ss n = (i : Int) ∧ ss ≤ (i : Int) ∧ i < n ∧
      isNewline (s.getD i 0) = true ∧
      ∀ k : Nat, i < k → k < n → isNewline (s.getD k 0) = false) := by
  induction n with
  | zero =>
    left
    exact ⟨rfl, fun k _ hk => absurd hk (Nat.not_lt_zero k)⟩
  | succ i ih =>
    unfold lastNewlineLoop
    split_ifs with h1 h2
    · right
      refine ⟨i, rfl, h1, Nat.lt_succ_self i, decide_eq_true h2, ?_⟩
      intro k hk1 hk2
      omega
    · have hi : isNewline (s.getD i 0) = false := decide_eq_false h2
      rcases ih with ⟨ih1, ih2⟩ | ⟨j, ih1, ih2, ih3, ih4, ih5⟩
      · left
        refine ⟨ih1, ?_⟩
        intro k hk1 hk2
        rcases Nat.lt_succ_iff_lt_or_eq.1 hk2 with hk | rfl
        · exact ih2 k hk1 hk
        · exact hi
      · right
        refine ⟨j, ih1, ih2, by omega, ih4, ?_⟩
        intro k hk1 hk2
        rcases Nat.lt_succ_iff_lt_or_eq.1 hk2 with hk | rfl
        · exact ih5 k hk1 hk
        · exact hi
    · left
      refine ⟨rfl, ?_⟩
      intro k hk1 hk2
      omega

theorem lastSpaceLoop_char (s : Bytes) (ss : Int) (n : Nat) :
    (lastSpaceLoop s ss n = -1 ∧
      ∀ k : Nat, ss ≤ (k : Int) → k < n → isBlank (s.getD k 0) = false) ∨
    (∃ i : Nat, lastSpaceLoop s ss n = (i : Int) ∧ ss ≤ (i : Int) ∧ i < n ∧
      isBlank (s.getD i 0) = true ∧
      ∀ k : Nat, i < k → k < n → isBlank (s.getD k 0) = false) := by
  induction n with
  | zero =>
    left
    exact ⟨rfl, fun k _ hk => absurd hk (Nat.not_lt_zero k)⟩
  | succ i ih =>
    unfold lastSpaceLoop
    split_ifs with h1 h2
    · right
      refine ⟨i, rfl, h1, Nat.lt_succ_self i, decide_eq_true h2, ?_⟩
      intro k hk1 hk2
      omega
    · have hi : isBlank (s.getD i 0) = false := decide_eq_false h2
      rcases ih with ⟨ih1, ih2⟩ | ⟨j, ih1, ih2, ih3, ih4, ih5⟩
      · left
        refine ⟨ih1, ?_⟩
        intro k hk1 hk2
        rcases Nat.lt_succ_iff_lt_or_eq.1 hk2 with hk | rfl
        · exact ih2 k hk1 hk
        · exact hi
      · right
        refine ⟨j, ih1, ih2, by omega, ih4, ?_⟩
        intro k hk1 hk2
        rcases Nat.lt_succ_iff_lt_or_eq.1 hk2 with hk | rfl
        · exact ih5 k hk1 hk
        · exact hi
    · left
      refine ⟨rfl, ?_⟩
      intro k hk1 hk2
      omega

theorem searchStart_eq (s : Bytes) (w : Int) :
    (if (s.length : Int) - w < 0 then (0 : Int) else (s.length : Int) - w) = windowStart s w := by
  unfold windowStart
  split_ifs <;> omega

theorem FindLastNewline_char (s : Bytes) (w : Int) :
    (FindLastNewline s w = -1 ∧ noneIn isNewline s w) ∨
    (∃ i : Nat, FindLastNewline s w = (i : Int) ∧ lastIn isNewline s w i) := by
  unfold FindLastNewline noneIn lastIn
  simp only [searchStart_eq]
  rcases lastNewlineLoop_char s (windowStart s w) s.length with h | ⟨i, h1, h2, h3, h4, h5⟩
  · left; exact h
  · right; exact ⟨i, h1, h2, h3, h4, h5⟩

theorem FindLastSpace_char (s : Bytes) (w : Int) :
    (FindLastSpace s w = -1 ∧ noneIn isBlank s w) ∨
    (∃ i : Nat, FindLastSpace s w = (i : Int) ∧ lastIn isBlank s w i) := by
  unfold FindLastSpace noneIn lastIn
  simp only [searchStart_eq]
  rcases lastSpaceLoop_char s (windowStart s w) s.length with h | ⟨i, h1, h2, h3, h4, h5⟩
  · left; exact h
  · right; exact ⟨i, h1, h2, h3, h4, h5⟩

theorem lastIn_unique {p : Nat → Bool} {s : Bytes} {w : Int} {i j : Nat}
    (hi : lastIn p s w i) (hj : lastIn p s w j) : i = j := by
  obtain ⟨-, hi2, hi3, hi4⟩ := hi
  obtain ⟨-, hj2, hj3, hj4⟩ := hj
  rcases Nat.lt_trichotomy i j with h | h | h
  · have := hi4 j h hj2
    rw [hj3] at this; cases this
  · exact h
  · have := hj4 i h hi2
    rw [hi3] at this; cases this

theorem lastIn_not_noneIn {p : Nat → Bool} {s : Bytes} {w : Int} {i : Nat}
    (hi : lastIn p s w i) (hn : noneIn p s w) : False := by
  obtain ⟨hi1, hi2, hi3, -⟩ := hi
  have := hn i hi1 hi2
  rw [hi3] at this; cases this

/-- The scanners return the greatest accepted offset of the window, or -1. -/
theorem scanner_char (p : Nat → Bool) (s : Bytes) (w : Int) (r : Int)
    (h : (r = -1 ∧ noneIn p s w) ∨ (∃ i : Nat, r = (i : Int) ∧ lastIn p s w i)) :
    (r = -1 ↔ noneIn p s w) ∧ (∀ i : Nat, r = (i : Int) ↔ lastIn p s w i) := by
  rcases h with ⟨h1, h2⟩ | ⟨i, h1, h2⟩
  · refine ⟨⟨fun _ => h2, fun _ => h1⟩, ?_⟩
    intro i
    constructor
    · intro hi; rw [h1] at hi; omega
    · intro hi; exact (lastIn_not_noneIn hi h2).elim
  · refine ⟨⟨?_, ?_⟩, ?_⟩
    · intro hr; rw [h1] at hr; omega
    · intro hn; exact (lastIn_not_noneIn h2 hn).elim
    · intro j
      constructor
      · intro hj
        have : i = j := by rw [h1] at hj; exact_mod_cast hj
        rw [← this]; exact h2
      · intro hj
        rw [h1, lastIn_unique h2 hj]

/-- C14: for every string `s` and window `w` (the windows `w >= 0` of the claim
among them), `FindLastNewline(s, w)` returns the greatest offset `i` with
`max(0, len(s) - w) <= i < len(s)` and `s[i]` a newline, and -1 exactly when the
trailing window of `w` bytes holds no newline, also when a newline stands
earlier in `s`; `FindLastSpace(s, w)` does the same for a space or a tab. -/
theorem C14_boundary_scanners (s : Bytes) (w : Int) :
    ((FindLastNewline s w = -1 ↔ noneIn isNewline s w) ∧
      ∀ i : Nat, FindLastNewline s w = (i : Int) ↔ lastIn isNewline s w i) ∧
    ((FindLastSpace s w = -1 ↔ noneIn isBlank s w) ∧
      ∀ i : Nat, FindLastSpace s w = (i : Int) ↔ lastIn isBlank s w i) ∧
    FindLastNewline [10, 97, 98, 99] 2 = -1 :=
  ⟨scanner_char _ s w _ (FindLastNewline_char s w), scanner_char _ s w _ (FindLastSpace_char s w),
    by decide⟩

/-! ## Scenario B and the degenerate limits -/

set_option maxRecDepth 100000 in
/-- C15, as stated, fails on its own input: for "line1\n" followed by 300 bytes
`x` and limit 100 the first chunk is "line1", cut at the newline of offset 5,
and not "line1\n". -/
theorem C15_counterexample :
    (SplitTrace ([108, 105, 110, 101, 49, 10] ++ List.replicate 300 120) 100).head?.map Prod.fst
      = some [108, 105, 110, 101, 49] ∧
    ([108, 105, 110, 101, 49] : Bytes) ≠ [108, 105, 110, 101, 49, 10] := by
  decide

set_option maxRecDepth 100000 in
/-- C15 (amended): for "line1\n" followed by 300 bytes `x` and limit 100,
`SplitMessage` chooses the newline at offset 5 for the first split and cuts in
front of it: the first chunk is "line1", without the newline, the newline heads
the text behind the chunk and `TrimSpace` removes it, so the text that remains
to be chunked is the 300 bytes `x`, which come out as three chunks of 100. -/
theorem C15_scenario_B :
    FindLastNewline (([108, 105, 110, 101, 49, 10] ++ List.replicate 300 120).take 100) 200 = 5 ∧
    candidateEnd ([108, 105, 110, 101, 49, 10] ++ List.replicate 300 120) 100 = 5 ∧
    (SplitTrace ([108, 105, 110, 101, 49, 10] ++ List.replicate 300 120) 100).head?
      = some ([108, 105, 110, 101, 49], [10] ++ List.replicate 300 120) ∧
    TrimSpace ([10] ++ List.replicate 300 120) = List.replicate 300 120 ∧
    SplitMessage ([108, 105, 110, 101, 49, 10] ++ List.replicate 300 120) 100
      = .ok [[108, 105, 110, 101, 49], List.replicate 100 120, List.replicate 100 120,
          List.replicate 100 120] := by
  decide

theorem splitPoint_zero (content : Bytes) : splitPoint content 0 = some 0 := by
  have h1 : slicePrefix content 0 = some [] := by simp [slicePrefix]
  have h2 : boundaryOr [] 0 = 0 := by decide
  have h3 : FindLastUnclosedCodeBlock [] = -1 := by decide
  simp [splitPoint, h1, h2, h3]

theorem splitLoop_no_panic (limit : Int) (h0 : 0 ≤ limit) : ∀ (fuel : Nat) (content : Bytes),
    splitLoop fuel content limit ≠ .panic := by
  intro fuel
  induction fuel with
  | zero =>
    intro content
    rw [splitLoop]
    split_ifs <;> simp
  | succ n ih =>
    intro content
    by_cases hne : content = []
    · subst hne
      rw [splitLoop_nil]; simp
    · by_cases hf : (content.length : Int) ≤ limit
      · rw [splitLoop_fit _ _ _ hne hf]; simp
      · have hlen : limit < (content.length : Int) := by omega
        have hex : ∃ e : Nat, splitPoint content limit = some (e : Int) ∧ e ≤ content.length := by
          by_cases hz : limit = 0
          · subst hz
            exact ⟨0, by simpa using splitPoint_zero content, Nat.zero_le _⟩
          · obtain ⟨e, hs, -, he, -⟩ := splitPoint_spec content limit (by omega) hlen
            exact ⟨e, hs, he⟩
        obtain ⟨e, hs, he⟩ := hex
        rw [splitLoop_step _ _ _ _ hlen hs he]
        have := ih (TrimSpace (content.drop e))
        cases hr : splitLoop n (TrimSpace (content.drop e)) limit with
        | ok ms => simp
        | panic => exact absurd hr this
        | starved => simp

/-- With limit 0 the loop never ends on a content that is not white space only. -/
theorem splitLoop_zero_starved : ∀ (fuel : Nat) (content : Bytes), TrimSpace content ≠ [] →
    splitLoop fuel content 0 = .starved := by
  intro fuel
  induction fuel with
  | zero =>
    intro content h
    have hne : content ≠ [] := by
      intro hnil; subst hnil; exact h (by decide)
    have := List.length_pos.2 hne
    simp [splitLoop, this]
  | succ n ih =>
    intro content h
    have hne : content ≠ [] := by
      intro hnil; subst hnil; exact h (by decide)
    have hpos := List.length_pos.2 hne
    have hlen : (0 : Int) < (content.length : Int) := by omega
    have hs : splitPoint content 0 = some ((0 : Nat) : Int) := by simpa using splitPoint_zero content
    rw [splitLoop_step _ _ _ 0 hlen hs (Nat.zero_le _)]
    have h2 : TrimSpace (TrimSpace content) ≠ [] := TrimSpace_ne_nil h (TrimSpace_leading content)
    simp only [List.drop_zero]
    rw [ih _ h2]

/-- With a negative limit every non-empty content ends in the out-of-range slice
`content[:limit]`. -/
theorem splitLoop_negative_panic (fuel : Nat) (content : Bytes) (limit : Int) (hneg : limit < 0)
    (hne : content ≠ []) : splitLoop (fuel + 1) content limit = .panic := by
  have hpos : 0 < content.length := List.length_pos.2 hne
  have hf : ¬ ((content.length : Int) ≤ limit) := by omega
  have hno : slicePrefix content limit = none := by
    unfold slicePrefix
    rw [if_neg]
    omega
  have hs : splitPoint content limit = none := by
    simp [splitPoint, hno]
  rw [splitLoop]
  simp only [hpos, if_true, hf, if_false, hs]

/-- C16, as stated, fails for a negative limit: on the one-byte content "a" with
limit -1 the slice `content[:limit]` is out of range. -/
theorem C16_counterexample :
    slicePrefix [97] (-1) = none ∧ SplitMessage [97] (-1) = .panic := by
  decide

/-- C16 (amended): for every content and every integer limit >= 0, and for the
empty content with any limit, no slice or index expression that
`SplitMessage(content, limit)` evaluates is out of range, however long the loop
runs; for limit > 0 the call returns, while for limit = 0 the loop never ends
unless content is white space only. -/
theorem C16_no_crash (content : Bytes) (limit : Int) (h : 0 ≤ limit ∨ content = []) :
    (∀ fuel, splitLoop fuel content limit ≠ .panic) ∧ SplitMessage content limit ≠ .panic ∧
    (0 < limit → ∃ ms, SplitMessage content limit = .ok ms) ∧
    (limit = 0 → TrimSpace content ≠ [] → ∀ fuel, splitLoop fuel content limit = .starved) := by
  have key : ∀ fuel, splitLoop fuel content limit ≠ .panic := by
    intro fuel
    rcases h with h | h
    · exact splitLoop_no_panic limit h fuel content
    · subst h
      rw [splitLoop_nil]; simp
  refine ⟨key, key content.length, ?_, ?_⟩
  · intro h0
    obtain ⟨ms, hms, -⟩ := chunks_nonempty content limit h0
    exact ⟨ms, hms⟩
  · intro hz ht fuel
    subst hz
    exact splitLoop_zero_starved fuel content ht

/-- A blank under limit 0: the run returns one empty chunk. -/
theorem C16_no_crash_witness :
    ((0 : Int) ≤ 0 ∨ ([32] : Bytes) = []) ∧
    ((∀ fuel, splitLoop fuel [32] 0 ≠ .panic) ∧ SplitMessage [32] 0 ≠ .panic ∧
      ((0 : Int) < 0 → ∃ ms, SplitMessage [32] 0 = .ok ms) ∧
      ((0 : Int) = 0 → TrimSpace [32] ≠ [] → ∀ fuel, splitLoop fuel [32] 0 = .starved)) ∧
    SplitMessage [32] 0 = .ok [[]] :=
  ⟨Or.inl (by decide), C16_no_crash [32] 0 (Or.inl (by decide)), by decide⟩

/-! ## The candidate offset -/

theorem boundaryOr_char (s : Bytes) (fb : Int) :
    (∀ i : Nat, lastIn isNewline s 200 i → 0 < i → boundaryOr s fb = (i : Int)) ∧
    (∀ j : Nat, (noneIn isNewline s 200 ∨ lastIn isNewline s 200 0) → lastIn isBlank s 100 j →
      0 < j → boundaryOr s fb = (j : Int)) ∧
    ((noneIn isNewline s 200 ∨ lastIn isNewline s 200 0) →
      (noneIn isBlank s 100 ∨ lastIn isBlank s 100 0) → boundaryOr s fb = fb) := by
  obtain ⟨hn1, hn2⟩ := scanner_char _ s 200 _ (FindLastNewline_char s 200)
  obtain ⟨hb1, hb2⟩ := scanner_char _ s 100 _ (FindLastSpace_char s 100)
  have hnl : (noneIn isNewline s 200 ∨ lastIn isNewline s 200 0) → FindLastNewline s 200 ≤ 0 := by
    rintro (h | h)
    · rw [hn1.2 h]; omega
    · rw [(hn2 0).2 h]; simp
  have hbl : (noneIn isBlank s 100 ∨ lastIn isBlank s 100 0) → FindLastSpace s 100 ≤ 0 := by
    rintro (h | h)
    · rw [hb1.2 h]; omega
    · rw [(hb2 0).2 h]; simp
  refine ⟨?_, ?_, ?_⟩
  · intro i hi hpos
    have h := (hn2 i).2 hi
    unfold boundaryOr
    simp only [h]
    rw [if_neg (by omega), if_neg (by omega)]
  · intro j hn hj hpos
    have h := (hb2 j).2 hj
    unfold boundaryOr
    simp only [h]
    rw [if_pos (hnl hn), if_neg (by omega)]
  · intro hn hb
    unfold boundaryOr
    simp only
    rw [if_pos (hnl hn), if_pos (hbl hb)]

/-- C17, as stated, fails when the only newline of the window stands at offset
0: on "\nab" with limit 2 the newline window of `content[:2]` holds the newline
of offset 0, `FindLastNewline` returns 0, and the candidate offset is the limit
2, although one search found a match. -/
theorem C17_counterexample :
    lastIn isNewline (([10, 97, 98] : Bytes).take 2) 200 0 ∧
    FindLastNewline (([10, 97, 98] : Bytes).take 2) 200 = 0 ∧
    candidateEnd [10, 97, 98] 2 = 2 ∧
    SplitMessage [10, 97, 98] 2 = .ok [[10, 97], [98]] :=
  ⟨((scanner_char _ _ 200 _ (FindLastNewline_char (([10, 97, 98] : Bytes).take 2) 200)).2 0).1
      (by decide), by decide, by decide, by decide⟩

/-- C17 (amended): for every limit > 0 and every content longer than limit, the
candidate split offset that `SplitMessage` computes before the fence guard is
the offset of the last newline among the last 200 bytes of `content[:limit]`
whenever that offset is positive; else, the newline window holding no newline or
only the one at offset 0, the offset of the last space or tab among the last 100
bytes of `content[:limit]` whenever that offset is positive; else the limit.  A
match at offset 0 counts as no match.  The iteration cuts at the candidate
offset when the fence guard finds no unclosed fence in front of it. -/
theorem C17_candidate_offset (content : Bytes) (limit : Int) (h0 : 0 < limit)
    (hlen : limit < (content.length : Int)) :
    (∀ i : Nat, lastIn isNewline (content.take limit.toNat) 200 i → 0 < i →
      candidateEnd content limit = (i : Int)) ∧
    (∀ j : Nat, (noneIn isNewline (content.take limit.toNat) 200 ∨
        lastIn isNewline (content.take limit.toNat) 200 0) →
      lastIn isBlank (content.take limit.toNat) 100 j → 0 < j →
      candidateEnd content limit = (j : Int)) ∧
    ((noneIn isNewline (content.take limit.toNat) 200 ∨
        lastIn isNewline (content.take limit.toNat) 200 0) →
      (noneIn isBlank (content.take limit.toNat) 100 ∨
        lastIn isBlank (content.take limit.toNat) 100 0) →
      candidateEnd content limit = limit) ∧
    (FindLastUnclosedCodeBlock (content.take (candidateEnd content limit).toNat) = -1 →
      splitPoint content limit = some (candidateEnd content limit)) := by
  obtain ⟨h1, h2, h3⟩ := boundaryOr_char (content.take limit.toNat) limit
  refine ⟨h1, h2, h3, ?_⟩
  intro hu
  obtain ⟨m, hm1, -, -, hcase⟩ := splitPoint_cases content limit h0 hlen
  have hce : candidateEnd content limit = (m : Int) := hm1
  rw [hce] at hu ⊢
  simp only [Int.toNat_ofNat] at hu
  rcases hcase with ⟨-, hs⟩ | ⟨u, hu', -⟩
  · exact hs
  · rw [hu] at hu'
    omega

/-- The text "a\nb cd" under limit 4: the newline of offset 1 is chosen. -/
theorem C17_candidate_offset_witness :
    (0 : Int) < 4 ∧ (4 : Int) < (([97, 10, 98, 32, 99, 100] : Bytes).length : Int) ∧
    candidateEnd [97, 10, 98, 32, 99, 100] 4 = 1 ∧
    ((∀ i : Nat, lastIn isNewline (([97, 10, 98, 32, 99, 100] : Bytes).take (4 : Int).toNat) 200 i →
      0 < i → candidateEnd [97, 10, 98, 32, 99, 100] 4 = (i : Int)) ∧
    (∀ j : Nat, (noneIn isNewline (([97, 10, 98, 32, 99, 100] : Bytes).take (4 : Int).toNat) 200 ∨
        lastIn isNewline (([97, 10, 98, 32, 99, 100] : Bytes).take (4 : Int).toNat) 200 0) →
      lastIn isBlank (([97, 10, 98, 32, 99, 100] : Bytes).take (4 : Int).toNat) 100 j → 0 < j →
      candidateEnd [97, 10, 98, 32, 99, 100] 4 = (j : Int)) ∧
    ((noneIn isNewline (([97, 10, 98, 32, 99, 100] : Bytes).take (4 : Int).toNat) 200 ∨
        lastIn isNewline (([97, 10, 98, 32, 99, 100] : Bytes).take (4 : Int).toNat) 200 0) →
      (noneIn isBlank (([97, 10, 98, 32, 99, 100] : Bytes).take (4 : Int).toNat) 100 ∨
        lastIn isBlank (([97, 10, 98, 32, 99, 100] : Bytes).take (4 : Int).toNat) 100 0) →
      candidateEnd [97, 10, 98, 32, 99, 100] 4 = 4) ∧
    (FindLastUnclosedCodeBlock
        (([97, 10, 98, 32, 99, 100] : Bytes).take (candidateEnd [97, 10, 98, 32, 99, 100] 4).toNat)
        = -1 →
      splitPoint [97, 10, 98, 32, 99, 100] 4 = some (candidateEnd [97, 10, 98, 32, 99, 100] 4))) :=
  ⟨by decide, by decide, by decide,
    C17_candidate_offset [97, 10, 98, 32, 99, 100] 4 (by decide) (by decide)⟩

/-! ## The branches of the fence guard -/

theorem SplitTrace_head (content : Bytes) (limit : Int) (e : Nat)
    (hlen : limit < (content.length : Int)) (hs : splitPoint content limit = some (e : Int))
    (he : e ≤ content.length) (hne : content ≠ []) :
    (SplitTrace content limit).head? = some (content.take e, content.drop e) := by
  have hpos : 0 < content.length := List.length_pos.2 hne
  obtain ⟨n, hn⟩ : ∃ n, content.length = n + 1 := ⟨content.length - 1, by omega⟩
  have hf : ¬ ((content.length : Int) ≤ limit) := by omega
  unfold SplitTrace
  rw [hn, traceLoop]
  simp only [hpos, if_true, hf, if_false, hs, slicePrefix_nat _ _ he, sliceSuffix_nat _ _ he,
    List.head?_cons]

set_option maxRecDepth 100000 in
/-- C18, as stated, fails when the unclosed fence stands at offset 0 of the
content: for three backticks, 498 bytes `a` and three backticks under limit 3
the candidate prefix is the opening fence, no closing fence ends within 503, and
the retreat finds no offset in front of the block, so the chunk is the hard cut
`content[:3]`, with 3 > 0 = unclosedIdx. -/
theorem C18_counterexample :
    ((3 : Int) + 500 < ((fence ++ List.replicate 498 97 ++ fence).length : Int)) ∧
    FindLastUnclosedCodeBlock ((fence ++ List.replicate 498 97 ++ fence).take
      (candidateEnd (fence ++ List.replicate 498 97 ++ fence) 3).toNat) = 0 ∧
    closingWithin (fence ++ List.replicate 498 97 ++ fence) 3 = false ∧
    splitPoint (fence ++ List.replicate 498 97 ++ fence) 3 = some 3 ∧
    (SplitTrace (fence ++ List.replicate 498 97 ++ fence) 3).head?.map Prod.fst = some fence := by
  decide

/-- The retreat of lines 44-50 with the fallback of lines 58-60, by the value of
`unclosedIdx`. -/
theorem retreat_spec (content : Bytes) (limit : Int) (u : Nat) (h0 : 0 < limit)
    (hlen : limit + 500 < (content.length : Int))
    (hu : FindLastUnclosedCodeBlock (content.take (candidateEnd content limit).toNat) = (u : Int))
    (hc : closingWithin content limit = false) :
    ∃ e : Nat, splitPoint content limit = some (e : Int) ∧
      (SplitTrace content limit).head? = some (content.take e, content.drop e) ∧
      (0 < u → 0 < e ∧ e ≤ u ∧ ¬ fence <:+: content.take e) ∧
      (u = 0 → (e : Int) = limit) := by
  have hlen' : limit < (content.length : Int) := by omega
  have hne : content ≠ [] := by
    intro h; subst h; simp at hlen'; omega
  obtain ⟨m, hm1, hm2, hm3, hcase⟩ := splitPoint_cases content limit h0 hlen'
  have hce : candidateEnd content limit = (m : Int) := hm1
  rw [hce] at hu
  simp only [Int.toNat_ofNat] at hu
  rcases hcase with ⟨hu', -⟩ | ⟨u', hu', hcase⟩
  · rw [hu] at hu'; omega
  · have huu : u' = u := by rw [hu] at hu'; exact_mod_cast hu'.symm
    subst huu
    rcases hcase with ⟨hext, -⟩ | ⟨-, c, hcl, hcase⟩
    · omega
    · rcases hcase with ⟨hc1, hc2, -⟩ | ⟨-, hs⟩
      · exfalso
        simp [closingWithin, hce, hcl, hc1, hc2] at hc
      · have hule := FindLastUnclosedCodeBlock_le _ _ hu
        simp at hule
        rcases FindLastUnclosedCodeBlock_cases (content.take m) with hx | ⟨k, hk, -, hfirst⟩
        · rw [hx] at hu; omega
        · have hku : k = u' := by rw [hu] at hk; exact_mod_cast hk.symm
          subst hku
          have hnofence : ∀ e : Nat, e ≤ k → ¬ fence <:+: content.take e := by
            intro e he hbad
            apply hfirst
            rw [List.take_take]
            have : min (k + 2) m = k + 2 := by omega
            rw [this]
            exact hbad.trans (List.take_prefix_take_left content (by omega)).isInfix
          rcases boundaryOr_cases (content.take k) (k : Int) with hb | hb
          · rw [hb] at hs
            by_cases hk0 : (k : Int) ≤ 0
            · rw [if_pos hk0] at hs
              have hs' : splitPoint content limit = some ((limit.toNat : Nat) : Int) := by
                rw [hs]; congr 1; omega
              refine ⟨limit.toNat, hs', SplitTrace_head _ _ _ hlen' hs' (by omega) hne, ?_, ?_⟩
              · intro hpos; omega
              · intro _; omega
            · rw [if_neg hk0] at hs
              refine ⟨k, hs, SplitTrace_head _ _ _ hlen' hs (by omega) hne, ?_, ?_⟩
              · intro hpos; exact ⟨hpos, le_rfl, hnofence k le_rfl⟩
              · intro hz; omega
          · have hb2 := hb.2
            simp at hb2
            rw [if_neg (by omega)] at hs
            have hs' : splitPoint content limit
                = some (((boundaryOr (content.take k) (k : Int)).toNat : Nat) : Int) := by
              rw [hs]; congr 1; omega
            refine ⟨(boundaryOr (content.take k) (k : Int)).toNat, hs',
              SplitTrace_head _ _ _ hlen' hs' (by omega) hne, ?_, ?_⟩
            · intro _
              exact ⟨by omega, by omega, hnofence _ (by omega)⟩
            · intro hz; omega

/-- C18 (amended): for every limit > 0 and every content with
`len(content) > limit + 500` whose candidate prefix has an unclosed fence at
`unclosedIdx` and for which no closing fence ending at an offset of at most
`limit + 500` is found at or after the candidate offset: when `unclosedIdx > 0`
the emitted chunk is `content[:e]` with `0 < e <= unclosedIdx`, in front of the
code block and without a fence; when the candidate prefix counts exactly one
fence, at offset 0, the open block begins the content, there is no offset in
front of it, and the chunk is the hard cut `content[:limit]`.  Nothing is said
of the case `unclosedIdx = 0` with three or more fences counted in the
candidate prefix. -/
theorem C18_retreat (content : Bytes) (limit : Int) (u : Nat) (h0 : 0 < limit)
    (hlen : limit + 500 < (content.length : Int))
    (hu : FindLastUnclosedCodeBlock (candidatePrefix content limit) = (u : Int))
    (hc : closingWithin content limit = false) :
    ∃ e : Nat, splitPoint content limit = some (e : Int) ∧
      (SplitTrace content limit).head? = some (content.take e, content.drop e) ∧
      (0 < u → 0 < e ∧ e ≤ u ∧ ¬ fence <:+: content.take e) ∧
      (greedyFences (candidatePrefix content limit) 0 = [0] →
        u = 0 ∧ fence <+: content ∧ (e : Int) = limit) := by
  obtain ⟨e, hs, hh, hpos, hzero⟩ := retreat_spec content limit u h0 hlen hu hc
  refine ⟨e, hs, hh, hpos, ?_⟩
  intro hg
  have hz := unclosed_zero_of_greedy _ hg
  have hu0 : u = 0 := by
    rw [hu] at hz
    exact_mod_cast hz
  refine ⟨hu0, ?_, hzero hu0⟩
  rcases FindLastUnclosedCodeBlock_cases (candidatePrefix content limit) with hx | ⟨k, hk, hpre, -⟩
  · rw [hx] at hz; omega
  · have hk0 : k = 0 := by
      rw [hz] at hk
      exact_mod_cast hk.symm
    subst hk0
    rw [List.drop_zero] at hpre
    exact hpre.trans (List.take_prefix _ _)

set_option maxRecDepth 100000 in
/-- The text "ab ", an opening fence and 700 bytes `a` under limit 150: the fence
at offset 3 is never closed and the chunk is "ab", cut at the blank of offset 2. -/
theorem C18_retreat_witness :
    (0 : Int) < 150 ∧
    ((150 : Int) + 500 < (([97, 98, 32] ++ fence ++ List.replicate 700 97).length : Int)) ∧
    FindLastUnclosedCodeBlock
      (candidatePrefix ([97, 98, 32] ++ fence ++ List.replicate 700 97) 150) = ((3 : Nat) : Int) ∧
    closingWithin ([97, 98, 32] ++ fence ++ List.replicate 700 97) 150 = false ∧
    ∃ e : Nat, splitPoint ([97, 98, 32] ++ fence ++ List.replicate 700 97) 150 = some (e : Int) ∧
      (SplitTrace ([97, 98, 32] ++ fence ++ List.replicate 700 97) 150).head?
        = some (([97, 98, 32] ++ fence ++ List.replicate 700 97).take e,
            ([97, 98, 32] ++ fence ++ List.replicate 700 97).drop e) ∧
      (0 < 3 → 0 < e ∧ e ≤ 3 ∧
        ¬ fence <:+: ([97, 98, 32] ++ fence ++ List.replicate 700 97).take e) ∧
      (greedyFences (candidatePrefix ([97, 98, 32] ++ fence ++ List.replicate 700 97) 150) 0 = [0] →
        3 = 0 ∧ fence <+: [97, 98, 32] ++ fence ++ List.replicate 700 97 ∧ (e : Int) = 150) :=
  ⟨by decide, by decide, by decide, by decide,
    C18_retreat ([97, 98, 32] ++ fence ++ List.replicate 700 97) 150 3 (by decide) (by decide)
      (by decide) (by decide)⟩

set_option maxRecDepth 100000 in
/-- The case left out, on "```a```hello```" followed by 499 bytes `x` and a
fence, limit 16: the candidate prefix counts the fences of offsets 0, 4 and 12,
the open one is that of offset 12, `FindLastUnclosedCodeBlock` returns 0, and
the retreat ends in the hard cut `content[:16]`, behind the open fence. -/
theorem retreat_after_first_fence :
    greedyFences (candidatePrefix ([96, 96, 96, 97, 96, 96, 96, 104, 101, 108, 108, 111, 96, 96, 96]
      ++ List.replicate 499 120 ++ fence) 16) 0 = [0, 4, 12] ∧
    firstFenceSlip ([96, 96, 96, 97, 96, 96, 96, 104, 101, 108, 108, 111, 96, 96, 96]
      ++ List.replicate 499 120 ++ fence) 16 = true ∧
    splitPoint ([96, 96, 96, 97, 96, 96, 96, 104, 101, 108, 108, 111, 96, 96, 96]
      ++ List.replicate 499 120 ++ fence) 16 = some 16 := by
  decide

set_option maxRecDepth 100000 in
/-- The other case left out, on "```x```" followed by 600 bytes `a` and a fence,
limit 6: the block that begins the text closes at offset 7, but its closing
fence, at offset 4, straddles the candidate offset 6 and the search from 6
misses it, so the guard retreats and the chunk is the hard cut `content[:6]`. -/
theorem retreat_misses_straddling_fence :
    fenceAt ([96, 96, 96, 120, 96, 96, 96] ++ List.replicate 600 97 ++ fence) 4 = true ∧
    candidateEnd ([96, 96, 96, 120, 96, 96, 96] ++ List.replicate 600 97 ++ fence) 6 = 6 ∧
    openBlockAtStart ([96, 96, 96, 120, 96, 96, 96] ++ List.replicate 600 97 ++ fence) 6 = true ∧
    straddleSlip ([96, 96, 96, 120, 96, 96, 96] ++ List.replicate 600 97 ++ fence) 6 = true ∧
    splitPoint ([96, 96, 96, 120, 96, 96, 96] ++ List.replicate 600 97 ++ fence) 6 = some 6 := by
  decide

set_option maxRecDepth 100000 in
/-- C19, on "```x```y```" followed by 600 bytes `a` with limit 6: the candidate
prefix "```x``" has an unclosed fence, the content is longer than 506, and the
closing fence found from offset 6 ends at 11, so the guard extends the split and
the chunk is `content[:11]`; the fence of offset 4, which straddles the
candidate offset, is counted in the chunk, and `FindLastUnclosedCodeBlock`
returns 0 on it instead of -1. -/
theorem C19_extension_keeps_open_block :
    guardExtends ([96, 96, 96, 120, 96, 96, 96, 121, 96, 96, 96] ++ List.replicate 600 97) 6 = true ∧
    candidateEnd ([96, 96, 96, 120, 96, 96, 96, 121, 96, 96, 96] ++ List.replicate 600 97) 6 = 6 ∧
    FindNextClosingCodeBlock
      ([96, 96, 96, 120, 96, 96, 96, 121, 96, 96, 96] ++ List.replicate 600 97) 6 = some 11 ∧
    (SplitTrace ([96, 96, 96, 120, 96, 96, 96, 121, 96, 96, 96] ++ List.replicate 600 97)
      6).head?.map Prod.fst = some [96, 96, 96, 120, 96, 96, 96, 121, 96, 96, 96] ∧
    FindLastUnclosedCodeBlock [96, 96, 96, 120, 96, 96, 96, 121, 96, 96, 96] = 0 := by
  decide

/-- C20: for every limit > 0 and every content no slice or index expression of
`SplitMessage` is out of range, so the run never ends in a panic and returns:
on every text longer than limit that an iteration may meet, `content[:limit]` is
in range, the candidate offset `msgEnd` has `0 < msgEnd <= limit`, so that
`content[:msgEnd]` is in range and `FindNextClosingCodeBlock(content, msgEnd)`
reads no byte out of range, an unclosed fence at `unclosedIdx` has
`0 <= unclosedIdx <= msgEnd`, so that `content[:unclosedIdx]` is in range, and
at the emit point `0 < msgEnd <= len(content)`, both slices in range. -/
theorem C20_slices_in_range (content : Bytes) (limit : Int) (h0 : 0 < limit) :
    (∀ fuel, splitLoop fuel content limit ≠ .panic) ∧
    (∃ ms, SplitMessage content limit = .ok ms) ∧
    ∀ cur : Bytes, limit < (cur.length : Int) →
      slicePrefix cur limit = some (cur.take limit.toNat) ∧
      ∃ m : Nat, candidateEnd cur limit = (m : Int) ∧ 0 < m ∧ (m : Int) ≤ limit ∧
        slicePrefix cur (m : Int) = some (cur.take m) ∧
        FindNextClosingCodeBlock cur (m : Int) ≠ none ∧
        (∀ u : Int, FindLastUnclosedCodeBlock (cur.take m) = u → 0 ≤ u →
          u ≤ (m : Int) ∧ slicePrefix cur u = some (cur.take u.toNat)) ∧
        ∃ e : Nat, splitPoint cur limit = some (e : Int) ∧ 0 < e ∧ e ≤ cur.length ∧
          slicePrefix cur (e : Int) = some (cur.take e) ∧
          sliceSuffix cur (e : Int) = some (cur.drop e) := by
  refine ⟨fun fuel => splitLoop_no_panic limit (le_of_lt h0) fuel content, ?_, ?_⟩
  · obtain ⟨ms, hms, -⟩ := chunks_nonempty content limit h0
    exact ⟨ms, hms⟩
  · intro cur hlen
    obtain ⟨m, hm1, hm2, hm3, -⟩ := splitPoint_cases cur limit h0 hlen
    obtain ⟨e, hs, he0, he1, -⟩ := splitPoint_spec cur limit h0 hlen
    have hml : m ≤ cur.length := by omega
    refine ⟨?_, m, hm1, hm2, hm3, slicePrefix_nat _ _ hml, ?_, ?_,
      e, hs, he0, he1, slicePrefix_nat _ _ he1, sliceSuffix_nat _ _ he1⟩
    · obtain ⟨n, hn⟩ : ∃ n : Nat, limit = (n : Int) := ⟨limit.toNat, by omega⟩
      rw [hn]
      simpa using slicePrefix_nat cur n (by omega)
    · rw [FindNextClosingCodeBlock_nat]
      simp
    · intro u hu hu0
      obtain ⟨k, hk⟩ : ∃ k : Nat, u = (k : Int) := ⟨u.toNat, by omega⟩
      subst hk
      have := FindLastUnclosedCodeBlock_le _ _ hu
      simp at this
      refine ⟨by omega, ?_⟩
      simpa using slicePrefix_nat cur k (by omega)

/-- A fence in the text "ab ```c``` de", limit 8. -/
theorem C20_slices_in_range_witness :
    (0 : Int) < 8 ∧
    ((∀ fuel, splitLoop fuel [97, 98, 32, 96, 96, 96, 99, 96, 96, 96, 32, 100, 101] 8 ≠ .panic) ∧
    (∃ ms, SplitMessage [97, 98, 32, 96, 96, 96, 99, 96, 96, 96, 32, 100, 101] 8 = .ok ms) ∧
    ∀ cur : Bytes, (8 : Int) < (cur.length : Int) →
      slicePrefix cur 8 = some (cur.take (8 : Int).toNat) ∧
      ∃ m : Nat, candidateEnd cur 8 = (m : Int) ∧ 0 < m ∧ (m : Int) ≤ 8 ∧
        slicePrefix cur (m : Int) = some (cur.take m) ∧
        FindNextClosingCodeBlock cur (m : Int) ≠ none ∧
        (∀ u : Int, FindLastUnclosedCodeBlock (cur.take m) = u → 0 ≤ u →
          u ≤ (m : Int) ∧ slicePrefix cur u = some (cur.take u.toNat)) ∧
        ∃ e : Nat, splitPoint cur 8 = some (e : Int) ∧ 0 < e ∧ e ≤ cur.length ∧
          slicePrefix cur (e : Int) = some (cur.take e) ∧
          sliceSuffix cur (e : Int) = some (cur.drop e)) :=
  ⟨by decide,
    C20_slices_in_range [97, 98, 32, 96, 96, 96, 99, 96, 96, 96, 32, 100, 101] 8 (by decide)⟩

end Message
